import Mathlib

/-!
# Mario doorbell: a verification development

Shallow embedding of programs of the repository

* `mikroc/door_button/door_button.c`  (namespace `DoorButton`),
* `mikroc/hex_convert/hex_convert.c`  (namespace `HexConvert`),
* `mikroc/door_ringer/door_ringer.c`  (namespace `DoorRinger`),

followed by the theorems proved about them.

Conventions.  mikroC `unsigned short` is an 8-bit quantity, so every
increment of such a variable is taken modulo 256.  Hardware register bits
are booleans (`true` = the bit reads 1).  Blocking delays are recorded in a
log, they do not change any other part of the state.
-/

set_option autoImplicit false

/-! ## Part 1. Definitions -/

namespace DoorButton

/-- Values of `enum sound`, in declaration order. -/
def COIN : Nat := 0
def COIN_1UP : Nat := 1
def COIN_MUSHROOM : Nat := 2
def ITS_MARIO : Nat := 3
def OUTTA_TIME : Nat := 4
def DOWN_PIPE : Nat := 5

/-- Segment table of the low digit. -/
def LO_SEGMENT : List Nat :=
  [0x02, 0x8F, 0x44, 0x50, 0x98, 0x11, 0x01, 0x5A, 0x00, 0x10]

/-- Segment table of the high digit. -/
def HI_SEGMENT : List Nat :=
  [0xDF, 0xDA, 0x44, 0x50, 0x98, 0x11, 0x01, 0x5A, 0x00, 0x10]

/-- Globals of `door_button.c` together with the register bits the code
touches.  `uart` is the list of bytes handed to `soft_uart_write`, oldest
first; `delays` is the list of `delay_ms` arguments, oldest first. -/
structure State where
  ring_type : Nat
  lo_num : Nat
  hi_num : Nat
  toggle : Nat
  press : Nat
  T0IE : Bool
  T0IF : Bool
  INTE : Bool
  INTF : Bool
  GIE : Bool
  PORTA : Nat
  PORTB_F1 : Bool
  PORTB_F2 : Bool
  uart : List Nat
  delays : List Nat
deriving DecidableEq, Repr

/-- The interrupt vector `interrupt()`.  The flags `T0IF` and `INTF` of the
incoming state say which sources are pending. -/
def interrupt (s : State) : State :=
  let s :=
    if s.T0IF then
      let s :=
        if s.toggle = 0 then
          { s with PORTB_F1 := true, PORTB_F2 := false,
                   PORTA := LO_SEGMENT.getD s.lo_num 0, toggle := 1 }
        else
          { s with PORTB_F2 := true, PORTB_F1 := false,
                   PORTA := HI_SEGMENT.getD s.hi_num 0, toggle := 0 }
      { s with T0IE := true, T0IF := false }
    else s
  if s.INTF then
    { s with press := 1, INTE := false, INTF := false }
  else s

/-- Lines 119-128 of `main`: the increment of the two-digit counter. -/
def increment (s : State) : State :=
  let s := { s with lo_num := (s.lo_num + 1) % 256 }
  if s.lo_num = 10 then
    let s := { s with lo_num := 0 }
    let s := { s with hi_num := (s.hi_num + 1) % 256 }
    if s.hi_num = 10 then { s with hi_num := 0 } else s
  else s

/-- Lines 130-139 of `main`: the ring type is chosen from the counter. -/
def determine_ring_type (s : State) : State :=
  if s.lo_num = 0 then
    if s.hi_num = 0 then { s with ring_type := COIN_MUSHROOM }
    else { s with ring_type := COIN_1UP }
  else { s with ring_type := COIN }

/-- Lines 141-144 of `main`: the byte is sent with interrupts masked. -/
def send (s : State) : State :=
  let s := { s with GIE := false }
  let s := { s with uart := s.uart ++ [s.ring_type] }
  { s with GIE := true }

/-- Lines 146-151 of `main`: the delay until the next allowable press. -/
def cooldown (s : State) : State :=
  if s.ring_type = COIN then { s with delays := s.delays ++ [125] }
  else if s.ring_type = COIN_1UP then { s with delays := s.delays ++ [675] }
  else if s.ring_type = COIN_MUSHROOM then { s with delays := s.delays ++ [875] }
  else s

/-- State at the entry of the `while (1)` loop of `main`. -/
def init : State :=
  { ring_type := 0, lo_num := 0, hi_num := 0, toggle := 0, press := 0,
    T0IE := true, T0IF := false, INTE := true, INTF := false, GIE := true,
    PORTA := 0, PORTB_F1 := false, PORTB_F2 := false, uart := [], delays := [] }

/-- One pass through the body of the `while (1)` loop of `main`.  `portb_f0`
is the value read from `PORTB.F0` after the 25 ms debounce delay. -/
def loop_body (s : State) (portb_f0 : Bool) : State :=
  if s.press ≠ 0 then
    let s := { s with INTE := false }
    let s := { s with press := 0 }
    let s := { s with delays := s.delays ++ [25] }
    let s :=
      if portb_f0 = false then
        cooldown (send (determine_ring_type (increment s)))
      else s
    let s := { s with INTF := false }
    { s with INTE := true }
  else s

/-- The button edge raises `INTF`; the handler runs; the loop then sees the
flag and the pin still reads 0 after the debounce delay. -/
def confirmed_press (s : State) : State :=
  loop_body (interrupt { s with INTF := true }) false

/-- The state after `n` confirmed presses from the initial state. -/
def after_presses : Nat → State
  | 0 => init
  | n + 1 => confirmed_press (after_presses n)

/-- The command code the specification assigns to the `n`-th press. -/
def code_of_count (n : Nat) : Nat :=
  if n % 100 = 0 then COIN_MUSHROOM
  else if n % 10 = 0 then COIN_1UP
  else COIN

/-- What can happen to the button controller: the interrupt handler runs
with the timer flag and the edge flag raised or not, or the main loop makes a
pass and reads `portb_f0` from the pin after the debounce delay. -/
inductive Event where
  | irq (t0if intf : Bool)
  | pass (portb_f0 : Bool)
deriving DecidableEq, Repr

/-- The effect of one event. -/
def step (s : State) : Event → State
  | Event.irq t0if intf => interrupt { s with T0IF := s.T0IF || t0if, INTF := s.INTF || intf }
  | Event.pass portb_f0 => loop_body s portb_f0

/-- The state reached from the start of the main loop by a sequence of events. -/
def run (events : List Event) : State :=
  events.foldl step init

end DoorButton

namespace HexConvert

/-! The tool is modelled for a target on which `int`, `long`, `size_t` and
pointers are 32 bits wide and memory is little-endian.  Memory allocation and
the stream operations `fopen`, `fseek`, `fread`, `fprintf`, `fwrite`,
`fclose` are taken to succeed (their failure branches return -1 before any
further effect), except where the size of the file decides the result. -/

/-- A `uint8_t`. -/
abbrev Byte := Fin 256

/-- One more than the largest `size_t`. -/
def SIZE_T : Nat := 2 ^ 32

/-- One upper-case hexadecimal digit (the digit of `n mod 16`). -/
def hexDigit (n : Nat) : Char :=
  ['0', '1', '2', '3', '4', '5', '6', '7', '8', '9', 'A', 'B', 'C', 'D', 'E', 'F'].getD
    (n % 16) '0'

/-- The `w` low hexadecimal digits of `n`, most significant first. -/
def hexDigits : Nat → Nat → List Char
  | 0, _ => []
  | w + 1, n => hexDigits w (n / 16) ++ [hexDigit n]

/-- The conversion `%0wX` of `printf` for a non-negative argument: at least
`w` digits, more when the value needs them. -/
def fmtX (w n : Nat) : List Char :=
  if n < 16 ^ w then hexDigits w n else hexDigits (Nat.log 16 n + 1) n

/-- The struct `HexFile`.  `out` is the text written to the stream so far;
`buf` holds the 16 cells of the array `buf`. -/
structure HexFile where
  out : List Char
  out_cnt : Nat
  buf : List Byte
  buf_cnt : Nat
deriving DecidableEq, Repr

/-- Function `hexfile_open`; the cells of `buf` are not initialised by the
code and are taken to be 0. -/
def hexfile_open : HexFile :=
  { out := [], out_cnt := 0, buf := List.replicate 16 0, buf_cnt := 0 }

/-- Function `hexfile_tell`. -/
def hexfile_tell (hf : HexFile) : Nat :=
  (hf.out_cnt + hf.buf_cnt) % SIZE_T

/-- `checksum = ~checksum + 1` on a `uint8_t`. -/
def negate8 (c : Nat) : Nat :=
  ((255 - c % 256) + 1) % 256

/-- The loop `for (scan ...) checksum += hf->buf[scan]` on a `uint8_t`. -/
def add_bytes (c : Nat) (bs : List Byte) : Nat :=
  bs.foldl (fun acc b => (acc + b.val) % 256) c

/-- The string left in `cbuf` by the loop of `sprintf(&cbuf[scan*2], "%02X",
hf->buf[scan])` for `scan < buf_cnt`: each call writes two digits and a
terminator, and the next call overwrites the terminator. -/
def cbuf_of (hf : HexFile) : List Char :=
  (List.range hf.buf_cnt).flatMap (fun scan => fmtX 2 (hf.buf.getD scan 0).val)

/-- The data record of lines 312-326: the text of the `fprintf`. -/
def data_record_text (hf : HexFile) : List Char :=
  let rec_type : Nat := 0x00
  let offset : Nat := (hf.out_cnt / 16 * 16) % 65536
  let checksum : Nat := (hf.buf_cnt + rec_type + offset % 256 + offset / 256 % 256) % 256
  let checksum := add_bytes checksum ((List.range hf.buf_cnt).map (fun scan => hf.buf.getD scan 0))
  let checksum := negate8 checksum
  [':'] ++ fmtX 2 hf.buf_cnt ++ fmtX 4 offset ++ fmtX 2 rec_type ++ cbuf_of hf ++
    fmtX 2 checksum ++ ['\n']

/-- The extended-linear-address record of lines 334-343, for the value of
`out_cnt` after the update. -/
def bank_record_text (out_cnt : Nat) : List Char :=
  let rec_type : Nat := 0x04
  let offset : Nat := (out_cnt / 65536) % 65536
  let checksum : Nat := (2 + rec_type + offset % 256 + offset / 256 % 256) % 256
  let checksum := negate8 checksum
  [':'] ++ fmtX 2 2 ++ fmtX 4 0 ++ fmtX 2 rec_type ++ fmtX 4 offset ++
    fmtX 2 checksum ++ ['\n']

/-- Lines 312-344 of `hexfile_write`: the body of the `if` that writes a
record out. -/
def emit (hf : HexFile) : HexFile :=
  let hf := { hf with out := hf.out ++ data_record_text hf }
  let hf := { hf with out_cnt := (hf.out_cnt + hf.buf_cnt) % SIZE_T }
  let hf := { hf with buf_cnt := 0 }
  if hf.out_cnt % 0x00010000 = 0 then
    { hf with out := hf.out ++ bank_record_text hf.out_cnt }
  else hf

/-- Where the argument `buf` of `hexfile_write` points: to bytes outside the
struct, or to `hf->buf` itself. -/
inductive Source where
  | external (bytes : List Byte)
  | internal
deriving DecidableEq, Repr

/-- The byte `*((uint8_t*)buf)` after `pos` increments of `buf`. -/
def fetch (hf : HexFile) : Source → Nat → Byte
  | Source.external bytes, pos => bytes.getD pos 0
  | Source.internal, pos => hf.buf.getD pos 0

/-- One pass through the body of the `while (size > 0)` loop of
`hexfile_write`; `pos` counts the increments of `buf` so far and `size` is
the value of `size` after its decrement. -/
def loop_pass (src : Source) (flush : Bool) (size pos : Nat) (hf : HexFile) : HexFile :=
  let hf := { hf with buf := hf.buf.set hf.buf_cnt (fetch hf src pos) }
  let hf := { hf with buf_cnt := (hf.buf_cnt + 1) % SIZE_T }
  if hf.buf_cnt = 16 ∨ (flush = true ∧ size = 0) then emit hf else hf

/-- The `while (size > 0)` loop of `hexfile_write`. -/
def write_loop (src : Source) (flush : Bool) : Nat → Nat → HexFile → HexFile
  | 0, _, hf => hf
  | size + 1, pos, hf => write_loop src flush size (pos + 1) (loop_pass src flush size pos hf)

/-- The text of the end-of-file record. -/
def eof : List Char := ":00000001FF\n".toList

/-- Function `hexfile_write`.  The result is the updated struct; the return
value of the C function is 0. -/
def hexfile_write (hf : HexFile) (src : Source) (size : Nat) : HexFile :=
  let flush : Bool := decide (src = Source.internal)
  let hf := if flush then { hf with buf_cnt := 0 } else hf
  let hf := write_loop src flush size 0 hf
  if flush then { hf with out := hf.out ++ eof } else hf

/-- Function `hexfile_close` on an open file: the text of the closed file. -/
def hexfile_close (hf : HexFile) : List Char :=
  (hexfile_write hf Source.internal hf.buf_cnt).out

/-- A call of `hexfile_write` on a buffer outside the struct. -/
def write_bytes (hf : HexFile) (bytes : List Byte) : HexFile :=
  hexfile_write hf (Source.external bytes) bytes.length

/-- Successive calls of `hexfile_write` on a freshly opened file. -/
def write_all (writes : List (List Byte)) : HexFile :=
  writes.foldl write_bytes hexfile_open

/-- One pass of the loop of `hexfile_write` on the byte `b` of a buffer
outside the struct. -/
def push_byte (hf : HexFile) (b : Byte) : HexFile :=
  loop_pass (Source.external [b]) false 0 0 hf

/-! ### The accesses to the two arrays of the writer -/

/-- An access of `hexfile_write` to one of its arrays: the store
`hf->buf[index] = ...`, the read of `hf->buf[index]` through the pointer
`buf` when `buf` is `hf->buf`, and the writes of the `sprintf` loop for a
record of `count` bytes, which reach `cbuf[2 * count]` with the terminator. -/
inductive Access where
  | store (index : Nat)
  | fetch_own (index : Nat)
  | cbuf_write (count : Nat)
deriving DecidableEq, Repr

/-- The access stays inside its array: `buf` has 16 cells and `cbuf` has
`sizeof(hf->buf)*2+1 = 33`. -/
def Access.in_bounds : Access → Prop
  | Access.store index => index < 16
  | Access.fetch_own index => index < 16
  | Access.cbuf_write count => 2 * count + 1 ≤ 33

/-- The accesses of one pass of the loop of `hexfile_write`, in order. -/
def pass_accesses (src : Source) (flush : Bool) (size pos : Nat) (hf : HexFile) :
    List Access :=
  (match src with
    | Source.external _ => []
    | Source.internal => [Access.fetch_own pos]) ++
  [Access.store hf.buf_cnt] ++
  (if (hf.buf_cnt + 1) % SIZE_T = 16 ∨ (flush = true ∧ size = 0) then
    [Access.cbuf_write ((hf.buf_cnt + 1) % SIZE_T)]
   else [])

/-- The accesses of the `while (size > 0)` loop of `hexfile_write`. -/
def loop_accesses (src : Source) (flush : Bool) : Nat → Nat → HexFile → List Access
  | 0, _, _ => []
  | size + 1, pos, hf =>
    pass_accesses src flush size pos hf ++
      loop_accesses src flush size (pos + 1) (loop_pass src flush size pos hf)

/-- The accesses of a call of `hexfile_write`. -/
def write_accesses (hf : HexFile) (src : Source) (size : Nat) : List Access :=
  let flush : Bool := decide (src = Source.internal)
  let hf := if flush then { hf with buf_cnt := 0 } else hf
  loop_accesses src flush size 0 hf

/-! ### Reading the hex text back -/

/-- Value of a hexadecimal digit `0-9`, `A-F`. -/
def hexVal (c : Char) : Option Nat :=
  if 48 ≤ c.toNat ∧ c.toNat ≤ 57 then some (c.toNat - 48)
  else if 65 ≤ c.toNat ∧ c.toNat ≤ 70 then some (c.toNat - 55)
  else none

/-- The bytes written as pairs of hexadecimal digits. -/
def parsePairs : List Char → Option (List Nat)
  | [] => some []
  | [_] => none
  | a :: b :: rest =>
    match hexVal a, hexVal b, parsePairs rest with
    | some x, some y, some r => some ((16 * x + y) :: r)
    | _, _, _ => none

/-- The fields printed in one record: byte count, 16-bit address, record
type, data bytes, checksum byte. -/
structure Record where
  count : Nat
  address : Nat
  rtype : Nat
  data : List Nat
  checksum : Nat
deriving DecidableEq, Repr

/-- One line `:CCAAAATTDD...SS` (without its newline) read as a record; the
number of data bytes must be the byte count. -/
def parseRecord : List Char → Option Record
  | [] => none
  | c :: rest =>
    if c = ':' then
      match parsePairs rest with
      | some (count :: ah :: al :: ty :: tail) =>
        if tail.length = count + 1 then
          some { count := count, address := 256 * ah + al, rtype := ty,
                 data := tail.take count, checksum := tail.getD count 0 }
        else none
      | _ => none
    else none

/-- The lines of a text, each ended by a newline. -/
def splitLines : List Char → List (List Char)
  | [] => []
  | c :: cs =>
    if c = '\n' then [] :: splitLines cs
    else
      match splitLines cs with
      | [] => [[c]]
      | l :: ls => (c :: l) :: ls

/-- Every line read as a record. -/
def parseLines : List (List Char) → Option (List Record)
  | [] => some []
  | l :: ls =>
    match parseRecord l, parseLines ls with
    | some r, some rs => some (r :: rs)
    | _, _ => none

/-- The records of a hex text. -/
def records (text : List Char) : Option (List Record) :=
  parseLines (splitLines text)

/-- The sum the checksum rule speaks of: byte count, the two address bytes,
record type, data bytes and checksum byte. -/
def Record.total (r : Record) : Nat :=
  r.count + r.address / 256 + r.address % 256 + r.rtype + r.data.sum + r.checksum

/-- State of a reader of the records: the upper 16 address bits in force and
the (address, byte) pairs placed so far, in the order of placement. -/
structure Image where
  upper : Nat
  cells : List (Nat × Nat)
deriving DecidableEq, Repr

/-- A type-04 record sets the upper 16 address bits, a type-00 record places
its data bytes from `upper * 65536 + address` on, any other record places
nothing. -/
def place (im : Image) (r : Record) : Image :=
  if r.rtype = 0 then
    { im with cells := im.cells ++
        r.data.enum.map (fun p => (im.upper * 65536 + r.address + p.1, p.2)) }
  else if r.rtype = 4 then
    { im with upper := r.data.getD 0 0 * 256 + r.data.getD 1 0 }
  else im

/-- The (address, byte) pairs a hex text places, in the order of the text. -/
def decode (text : List Char) : Option (List (Nat × Nat)) :=
  match records text with
  | some rs => some (rs.foldl place { upper := 0, cells := [] }).cells
  | none => none

/-! ### The records the writer is expected to print -/

/-- The text of a record without its newline: a colon and every field as
two hexadecimal digits per byte. -/
def line (r : Record) : List Char :=
  ':' :: (([r.count, r.address / 256, r.address % 256, r.rtype] ++ r.data ++
    [r.checksum]).flatMap (hexDigits 2))

/-- The text of a record. -/
def render (r : Record) : List Char :=
  line r ++ ['\n']

/-- The text of a list of records. -/
def render_all (rs : List Record) : List Char :=
  rs.flatMap render

/-- The data record for the bytes `bytes` that follow `off` bytes already
written out. -/
def data_record (off : Nat) (bytes : List Byte) : Record :=
  { count := bytes.length, address := off % 65536, rtype := 0,
    data := bytes.map Fin.val,
    checksum := negate8 (add_bytes
      ((bytes.length + 0 + off % 65536 % 256 + off % 65536 / 256 % 256) % 256) bytes) }

/-- The extended-linear-address record printed once `off` bytes have been
written out. -/
def bank_record (off : Nat) : Record :=
  { count := 2, address := 0, rtype := 4,
    data := [off / 65536 % 65536 / 256, off / 65536 % 65536 % 256],
    checksum := negate8
      ((2 + 4 + off / 65536 % 65536 % 256 + off / 65536 % 65536 / 256 % 256) % 256) }

/-- The end-of-file record. -/
def eof_record : Record :=
  { count := 0, address := 0, rtype := 1, data := [], checksum := 255 }

/-- Bytes `16 k .. 16 k + 15` of the stream. -/
def chunk (stream : List Byte) (k : Nat) : List Byte :=
  (stream.drop (16 * k)).take 16

/-- The records printed when the `k`-th full line of the stream is written
out: its data record, and the bank record when the line ends a bank. -/
def chunk_records (stream : List Byte) (k : Nat) : List Record :=
  data_record (16 * k) (chunk stream k) ::
    (if (16 * k + 16) % 65536 = 0 then [bank_record (16 * k + 16)] else [])

/-- The records of the first `n` full lines of the stream. -/
def full_records (stream : List Byte) (n : Nat) : List Record :=
  (List.range n).flatMap (chunk_records stream)

/-- The record of the bytes left over after the full lines, if any. -/
def tail_records (stream : List Byte) : List Record :=
  if stream.length % 16 = 0 then []
  else [data_record (16 * (stream.length / 16)) (stream.drop (16 * (stream.length / 16)))]

/-- All the records of a stream that is written and closed. -/
def expected_records (stream : List Byte) : List Record :=
  full_records stream (stream.length / 16) ++ tail_records stream ++ [eof_record]

/-- Every field of the record fits the width it is printed in, and the byte
count is the number of data bytes. -/
def Record.wf (r : Record) : Prop :=
  r.count = r.data.length ∧ r.count < 256 ∧ r.address < 65536 ∧ r.rtype < 256 ∧
  (∀ b ∈ r.data, b < 256) ∧ r.checksum < 256

/-- The state of the writer after the bytes of `stream` have been written
from buffers outside the struct. -/
def Inv (hf : HexFile) (stream : List Byte) : Prop :=
  hf.out_cnt = 16 * (stream.length / 16) % SIZE_T ∧
  hf.buf_cnt = stream.length % 16 ∧
  hf.buf.length = 16 ∧
  hf.buf.take (stream.length % 16) = stream.drop (16 * (stream.length / 16)) ∧
  hf.out = render_all (full_records stream (stream.length / 16))

/-- The number of data bytes a record carries: its byte count for a record
of type 00, nothing for any other record. -/
def carried (r : Record) : Nat :=
  if r.rtype = 0 then r.count else 0

/-- The number of data bytes carried by a list of records. -/
def data_bytes (rs : List Record) : Nat :=
  (rs.map carried).sum

/-- Every record of the list satisfies `P` at the number of data bytes
carried before it, counted from `off`. -/
def running (P : Nat → Record → Prop) : Nat → List Record → Prop
  | _, [] => True
  | off, r :: rs => P off r ∧ running P (off + carried r) rs

/-! ### The wave file reader -/

/-- A little-endian `uint16_t` at offset `off` of the file buffer. -/
def u16 (wav : List Byte) (off : Nat) : Nat :=
  (wav.getD off 0).val + 256 * (wav.getD (off + 1) 0).val

/-- A little-endian `uint32_t` at offset `off` of the file buffer. -/
def u32 (wav : List Byte) (off : Nat) : Nat :=
  u16 wav off + 65536 * u16 wav (off + 2)

/-- The four characters at offset `off` of the file buffer. -/
def tag (wav : List Byte) (off : Nat) : List Byte :=
  (wav.drop off).take 4

def RIFF : List Byte := [0x52, 0x49, 0x46, 0x46]
def WAVE : List Byte := [0x57, 0x41, 0x56, 0x45]
def FMT_ : List Byte := [0x66, 0x6D, 0x74, 0x20]
def DATA : List Byte := [0x64, 0x61, 0x74, 0x61]

/-- The three values `process_wavfile` prints for an accepted file. -/
structure Report where
  offset : Nat
  length : Nat
  sample_rate : Nat
deriving DecidableEq, Repr

/-- The result of `process_wavfile`: its return value, the `HexFile` it
leaves, and what it reported. -/
structure Outcome where
  rc : Int
  hf : HexFile
  report : Option Report
deriving DecidableEq, Repr

/-- Every `FUNC_PRINT_RETURN(ret_func, ..., -1)` of `process_wavfile`. -/
def reject (hex_file : HexFile) : Outcome :=
  { rc := -1, hf := hex_file, report := none }

/-- Function `process_wavfile` on a file that can be opened and whose
content is `wav`.  `ftell` returns -1 for a size that a 32-bit `long` does
not hold, and `fread` of one item of size 0 returns 0. -/
def process_wavfile (hex_file : HexFile) (wav : List Byte) : Outcome :=
  if 0x80000000 ≤ wav.length then reject hex_file
  else
  let fsize : Nat := wav.length
  if fsize = 0 then reject hex_file
  else
  let hdr_size : Nat := 12 + 24 + 12 - 4
  if fsize < hdr_size then reject hex_file
  -- the wave header
  else if tag wav 0 ≠ RIFF then reject hex_file
  else if u32 wav 4 ≠ fsize - 8 then reject hex_file
  else if tag wav 8 ≠ WAVE then reject hex_file
  -- the format chunk
  else if tag wav 12 ≠ FMT_ then reject hex_file
  else if u32 wav 16 ≠ 24 - 8 then reject hex_file
  else if u16 wav 20 ≠ 1 then reject hex_file
  else if u16 wav 22 ≠ 1 then reject hex_file
  else if u32 wav 24 ≠ 8000 ∧ u32 wav 24 ≠ 11025 ∧ u32 wav 24 ≠ 22050 then
    reject hex_file
  else if u32 wav 24 ≠ u32 wav 28 then reject hex_file
  else if u16 wav 32 ≠ 1 then reject hex_file
  else if u16 wav 34 ≠ 8 then reject hex_file
  -- the data chunk
  else if tag wav 36 ≠ DATA then reject hex_file
  else if u32 wav 40 ≠ fsize - 44 then reject hex_file
  else
    let offset := hexfile_tell hex_file
    let hex_file := hexfile_write hex_file (Source.external (wav.drop 44)) (u32 wav 40)
    { rc := 0, hf := hex_file,
      report := some { offset := offset, length := u32 wav 40, sample_rate := u32 wav 24 } }

/-- What a run of the tool leaves: exit status, the text of `eeprom.hex`,
and the reports printed, oldest first. -/
structure Run where
  rc : Int
  text : List Char
  reports : List Report
deriving DecidableEq, Repr

/-- The `for` loop of `main` over the files still to process, followed by
the close of the hex file; a file that is rejected ends the run through
`ret_func`, which closes the hex file. -/
def process_all (hex_file : HexFile) (reports : List Report) : List (List Byte) → Run
  | [] => { rc := 0, text := hexfile_close hex_file, reports := reports }
  | wav :: rest =>
    let r := process_wavfile hex_file wav
    if r.rc ≠ 0 then
      { rc := -1, text := hexfile_close r.hf, reports := reports }
    else
      process_all r.hf (reports ++ r.report.toList) rest

/-- Function `main` called with the contents of the files named on the
command line; the hex file can be opened. -/
def main (wav_files : List (List Byte)) : Run :=
  process_all hexfile_open [] wav_files

/-- The reports of a run that accepts every file, when `off` bytes were
written before the first of them. -/
def expected_reports (off : Nat) : List (List Byte) → List Report
  | [] => []
  | wav :: rest =>
    { offset := off % SIZE_T, length := wav.length - 44, sample_rate := u32 wav 24 } ::
      expected_reports (off + (wav.length - 44)) rest

/-- The checks of a wave file that the interface contract lists, as a
predicate on the content of the file: one of them is violated. -/
def violates_listed_check (wav : List Byte) : Prop :=
  tag wav 0 ≠ RIFF ∨ tag wav 8 ≠ WAVE ∨ tag wav 12 ≠ FMT_ ∨ tag wav 36 ≠ DATA ∨
  (u32 wav 4 : Int) ≠ (wav.length : Int) - 8 ∨
  u16 wav 20 ≠ 1 ∨ u16 wav 22 ≠ 1 ∨
  (u32 wav 24 ≠ 8000 ∧ u32 wav 24 ≠ 11025 ∧ u32 wav 24 ≠ 22050) ∨
  u32 wav 28 ≠ u32 wav 24 ∨ u16 wav 32 ≠ 1 ∨ u16 wav 34 ≠ 8

/-- A well-formed 44-byte header for a payload of `n` bytes (`n < 256`) at
8000 samples per second, used to build concrete files. -/
def header8000 (n : Nat) : List Byte :=
  RIFF ++ [Fin.ofNat (n + 36), 0, 0, 0] ++ WAVE ++ FMT_ ++ [16, 0, 0, 0] ++ [1, 0] ++ [1, 0] ++
  [0x40, 0x1F, 0, 0] ++ [0x40, 0x1F, 0, 0] ++ [1, 0] ++ [8, 0] ++ DATA ++ [Fin.ofNat n, 0, 0, 0]

/-- A well-formed 44-byte header for a payload of 0x7FFFFFD3 bytes, the
largest that a file of fewer than 2^31 bytes holds, at 8000 samples per
second: the overall size field is 0x7FFFFFF7 and the data size field is
0x7FFFFFD3, both little-endian. -/
def big_header : List Byte :=
  RIFF ++ [0xF7, 0xFF, 0xFF, 0x7F] ++ WAVE ++ FMT_ ++ [16, 0, 0, 0] ++ [1, 0] ++ [1, 0] ++
  [0x40, 0x1F, 0, 0] ++ [0x40, 0x1F, 0, 0] ++ [1, 0] ++ [8, 0] ++ DATA ++
  [0xD3, 0xFF, 0xFF, 0x7F]

/-- A wave file of 0x7FFFFFFF bytes: the header above and a payload of
0x7FFFFFD3 zero samples. -/
def big_file : List Byte := big_header ++ List.replicate 0x7FFFFFD3 0

end HexConvert

namespace DoorRinger

/-! The ringer is modelled with its two globals, the three chip-select and
hold lines of `PORTC`, and a log of the traffic on the SPI bus and of the
blocking delays of `play_sound` and `main`.  mikroC `unsigned short` is 8
bits wide, `unsigned int` 16 bits and `unsigned long` 32 bits.  What the
hardware supplies (the pins of `PORTA`, the received byte, the bytes the
store returns) is an argument of the function that reads it. -/

/-- Values of `enum frequency`, in declaration order. -/
def FREQ_8000 : Nat := 0
def FREQ_11025 : Nat := 1
def FREQ_22050 : Nat := 2

/-- Values of `enum sound`, in declaration order. -/
def COIN : Nat := 0
def COIN_1UP : Nat := 1
def COIN_MUSHROOM : Nat := 2
def ITS_MARIO : Nat := 3
def OUTTA_TIME : Nat := 4
def DOWN_PIPE : Nat := 5

/-- One entry of the log: a byte written to or read from the SPI bus, with
the values of `PORTC.F0` (chip select of the store, active low), `PORTC.F1`
(chip select of the converter, active low) and `PORTC.F2` (hold of the
store, active low) at that moment, or a blocking delay. -/
inductive Op where
  | spi_write (f0 f1 f2 : Bool) (data : Nat)
  | spi_read (f0 f1 f2 : Bool) (data : Nat)
  | delay_us (n : Nat)
  | delay_ms (n : Nat)
deriving DecidableEq, Repr

/-- Globals of `door_ringer.c`, the three lines of `PORTC` and the log. -/
structure State where
  rx_data : Nat
  wave_scan : Nat
  PORTC_F0 : Bool
  PORTC_F1 : Bool
  PORTC_F2 : Bool
  log : List Op
deriving DecidableEq, Repr

/-- What the hardware presents when the interrupt vector is entered: the two
flags, the two pins of `PORTA`, and the byte `usart_read` would return. -/
structure Irq where
  INTF : Bool
  RCIF : Bool
  PORTA_F0 : Bool
  PORTA_F1 : Bool
  RCREG : Nat
deriving DecidableEq, Repr

/-- Lines 48-60 of `interrupt`: the body of `if (INTCON.INTF)`.  The 25 ms
debounce delay of the handler is not entered in the log. -/
def external_path (s : State) (porta_f0 porta_f1 : Bool) : State :=
  let s := { s with rx_data := 0xFF }
  if (porta_f0 && porta_f1) = true then { s with rx_data := ITS_MARIO }
  else if (!porta_f0 && porta_f1) = true then { s with rx_data := OUTTA_TIME }
  else if (porta_f0 && !porta_f1) = true then { s with rx_data := DOWN_PIPE }
  else s

/-- Lines 65-66 of `interrupt`: the body of `if (PIR1.RCIF)`. -/
def receive_path (s : State) (rcreg : Nat) : State :=
  let s := { s with rx_data := rcreg % 256 }
  { s with wave_scan := 0x80000000 }

/-- The interrupt vector `interrupt()`. -/
def interrupt (s : State) (e : Irq) : State :=
  let s := if e.INTF = true then external_path s e.PORTA_F0 e.PORTA_F1 else s
  if e.RCIF = true then receive_path s e.RCREG else s

/-- The handler run once for each of a list of interrupts, in order. -/
def run_irqs (s : State) (es : List Irq) : State :=
  es.foldl interrupt s

/-- Library routine `spi_write`: one byte goes out on the bus. -/
def spi_write (s : State) (data : Nat) : State :=
  { s with log := s.log ++ [Op.spi_write s.PORTC_F0 s.PORTC_F1 s.PORTC_F2 (data % 256)] }

/-- Library routine `delay_us`. -/
def delay_us (s : State) (n : Nat) : State :=
  { s with log := s.log ++ [Op.delay_us n] }

/-- Library routine `delay_ms`. -/
def delay_ms (s : State) (n : Nat) : State :=
  { s with log := s.log ++ [Op.delay_ms n] }

/-- The macros `BYTE0`, `BYTE1`, `BYTE2`. -/
def BYTE0 (param : Nat) : Nat := param % 256
def BYTE1 (param : Nat) : Nat := param / 256 % 256
def BYTE2 (param : Nat) : Nat := param / 65536 % 256

/-- Lines 75-88 of `play_sound`: the store is woken up and given the read
command and the three address bytes. -/
def wake (offset : Nat) (s : State) : State :=
  let s := { s with PORTC_F0 := true }
  let s := { s with PORTC_F0 := false }
  let s := spi_write s 0xAB
  let s := { s with PORTC_F0 := true }
  let s := delay_us s 100
  let s := { s with PORTC_F0 := false }
  let s := { s with PORTC_F2 := true }
  let s := spi_write s 0x03
  let s := spi_write s (BYTE2 offset)
  let s := spi_write s (BYTE1 offset)
  spi_write s (BYTE0 offset)

/-- The value `(SPI_Read(0x00) << 4)` stored in the `unsigned int wave_data`,
for the byte `sample` the store returns; the byte is promoted to 16 bits
before the shift. -/
def wave_data_of (sample : Nat) : Nat :=
  ((sample % 256) <<< 4) % 65536

/-- Lines 92-108 of `play_sound`: the body of the `for` loop, for the byte
`sample` the store returns. -/
def sample_pass (rate sample : Nat) (s : State) : State :=
  let s := { s with PORTC_F2 := true }
  let s := { s with log := s.log ++
    [Op.spi_read s.PORTC_F0 s.PORTC_F1 s.PORTC_F2 (sample % 256)] }
  let wave_data := wave_data_of sample
  let s := { s with PORTC_F2 := false }
  let s := { s with PORTC_F1 := false }
  let s := spi_write s (BYTE1 wave_data ||| 0x10)
  let s := spi_write s (BYTE0 wave_data)
  let s := { s with PORTC_F1 := true }
  if rate = FREQ_8000 then delay_us s 0x65
  else if rate = FREQ_11025 then delay_us s 0x41
  else if rate = FREQ_22050 then delay_us s 0x12
  else s

/-- Lines 111-122 of `play_sound`: the converter is set to the normalized
level and the store is shut down. -/
def shutdown (s : State) : State :=
  let s := { s with PORTC_F1 := false }
  let s := spi_write s 0x18
  let s := spi_write s 0x00
  let s := { s with PORTC_F1 := true }
  let s := { s with PORTC_F0 := true }
  let s := { s with PORTC_F0 := false }
  let s := spi_write s 0xB9
  let s := { s with PORTC_F0 := true }
  delay_us s 100

/-- The interrupts that arrive around one pass of the `for` loop: `body`
after the test `wave_scan < length` and before the increment, `step` after
the increment and before the next test.  The handler writes `rx_data` and
`wave_scan` only, which the body of the loop neither reads nor writes, so an
interrupt inside the body has the effect of one right after it. -/
structure Arrivals where
  body : List Irq
  step : List Irq

/-- The interrupts around one call of `play_sound`: `setup` before the
initialisation `wave_scan = 0` of the loop, `loop k` around the `k`-th pass,
`finish` after the loop. -/
structure Schedule where
  setup : List Irq
  loop : Nat → Arrivals
  finish : List Irq

/-- What the hardware supplies to one call of `play_sound`: the byte the
`k`-th `SPI_Read` returns, and the interrupts. -/
structure Call where
  samples : Nat → Nat
  sch : Schedule

/-- The `for` loop of `play_sound` from its test on, `k` passes having been
made; `none` when the fuel runs out first. -/
def play_loop (rate length : Nat) (env : Call) : Nat → Nat → State → Option State
  | 0, _, _ => none
  | fuel + 1, k, s =>
    if s.wave_scan < length then
      let s := sample_pass rate (env.samples k) s
      let s := run_irqs s (env.sch.loop k).body
      let s := { s with wave_scan := (s.wave_scan + 1) % 4294967296 }
      let s := run_irqs s (env.sch.loop k).step
      play_loop rate length env fuel (k + 1) s
    else some s

/-- Function `play_sound`. -/
def play_sound (rate offset length : Nat) (env : Call) (fuel : Nat) (s : State) :
    Option State :=
  let s := wake offset s
  let s := run_irqs s env.sch.setup
  let s := { s with wave_scan := 0x000000 }
  match play_loop rate length env fuel 0 s with
  | none => none
  | some s => some (run_irqs (shutdown s) env.sch.finish)

/-- State at the entry of the `while (1)` loop of `main`. -/
def init : State :=
  { rx_data := 0xFF, wave_scan := 0xFFFFFFFF, PORTC_F0 := true, PORTC_F1 := true,
    PORTC_F2 := true, log := [] }

/-- One pass through the body of the `while (1)` loop of `main`; `envs i` is
what the hardware supplies to the `i`-th call of `play_sound` of the pass
(interrupts during a pause count with the call before it, and none is taken
between the read and the clearing of the mailbox). -/
def main_pass (envs : Nat → Call) (fuel : Nat) (s : State) : Option State :=
  let _rx_data := s.rx_data
  let s := { s with rx_data := 0xFF }
  if _rx_data = COIN then
    play_sound FREQ_22050 0x000000 0x0046BE (envs 0) fuel s
  else if _rx_data = COIN_1UP then
    (play_sound FREQ_22050 0x000000 0x000CEC (envs 0) fuel s).bind fun s =>
    play_sound FREQ_22050 0x0046BE 0x0042F0 (envs 1) fuel s
  else if _rx_data = COIN_MUSHROOM then
    (play_sound FREQ_22050 0x000000 0x000CEC (envs 0) fuel s).bind fun s =>
    play_sound FREQ_22050 0x0089AE 0x005053 (envs 1) fuel s
  else if _rx_data = ITS_MARIO then
    play_sound FREQ_11025 0x00DA01 0x0050C9 (envs 0) fuel s
  else if _rx_data = OUTTA_TIME then
    play_sound FREQ_11025 0x012ACA 0x007DC1 (envs 0) fuel s
  else if _rx_data = DOWN_PIPE then
    (play_sound FREQ_22050 0x01A88B 0x000FD2 (envs 0) fuel s).bind fun s =>
    (play_sound FREQ_22050 0x01A88B 0x000FD2 (envs 1) fuel (delay_ms s 85)).bind fun s =>
    (play_sound FREQ_22050 0x01A88B 0x000FD2 (envs 2) fuel (delay_ms s 85)).bind fun s =>
    some (delay_ms s 85)
  else some s

/-! ### What is seen on the bus -/

/-- The byte of an entry of the log that reaches the converter: a byte
written while `PORTC.F1` is low. -/
def converter_byte : Op → List Nat
  | Op.spi_write _ f1 _ data => if f1 = false then [data] else []
  | _ => []

/-- The bytes written to the converter, oldest first. -/
def converter_bytes (log : List Op) : List Nat :=
  log.flatMap converter_byte

/-- The byte of an entry of the log that is a command or address byte for
the store: a byte written while `PORTC.F0` is low and `PORTC.F1` is high. -/
def store_byte : Op → List Nat
  | Op.spi_write f0 f1 _ data => if f0 = false ∧ f1 = true then [data] else []
  | _ => []

/-- The bytes sent to the store, oldest first. -/
def store_bytes (log : List Op) : List Nat :=
  log.flatMap store_byte

/-- An entry of the log counts as one sample when it is a read of the bus. -/
def read_count : Op → Nat
  | Op.spi_read _ _ _ _ => 1
  | _ => 0

/-- The number of samples fetched from the store so far. -/
def streamed (s : State) : Nat :=
  (s.log.map read_count).sum

/-- A byte is received (the handler takes its receive path) during or right
after the pass. -/
def cancels (a : Arrivals) : Bool :=
  (a.body ++ a.step).any (fun e => e.RCIF)

/-- The number of passes the loop is expected to make from pass `k` on with
`r` samples left: up to and including the first pass a byte is received in. -/
def passes_from (loop : Nat → Arrivals) : Nat → Nat → Nat
  | 0, _ => 0
  | r + 1, k => if cancels (loop k) = true then 1 else passes_from loop r (k + 1) + 1

/-- The interrupts of `n` passes from pass `k` on, in order. -/
def loop_events (loop : Nat → Arrivals) : Nat → Nat → List Irq
  | 0, _ => []
  | n + 1, k => (loop k).body ++ (loop k).step ++ loop_events loop n (k + 1)

/-- The two bytes written to the converter for each of `n` samples from
sample `k` on. -/
def sample_bytes (samples : Nat → Nat) : Nat → Nat → List Nat
  | 0, _ => []
  | n + 1, k =>
    [(BYTE1 (wave_data_of (samples k)) ||| 0x10) % 256,
     BYTE0 (wave_data_of (samples k)) % 256] ++ sample_bytes samples n (k + 1)

/-- A call in which no interrupt arrives and the store returns `sample` at
every read. -/
def quiet (sample : Nat) : Call :=
  { samples := fun _ => sample,
    sch := { setup := [], loop := fun _ => { body := [], step := [] }, finish := [] } }

/-- A call in which the byte `rcreg` is received during pass `k` and nothing
else happens. -/
def receive_at (k rcreg sample : Nat) : Call :=
  { samples := fun _ => sample,
    sch := { setup := [],
             loop := fun j =>
               if j = k then
                 { body := [{ INTF := false, RCIF := true, PORTA_F0 := false,
                              PORTA_F1 := false, RCREG := rcreg }], step := [] }
               else { body := [], step := [] },
             finish := [] } }

/-- A call in which the external interrupt arrives during pass `k` with both
pins of `PORTA` high, no byte is received, and nothing else happens. -/
def debug_at (k sample : Nat) : Call :=
  { samples := fun _ => sample,
    sch := { setup := [],
             loop := fun j =>
               if j = k then
                 { body := [{ INTF := true, RCIF := false, PORTA_F0 := true,
                              PORTA_F1 := true, RCREG := 0 }], step := [] }
               else { body := [], step := [] },
             finish := [] } }

/-- A call in which the byte `rcreg` is received during pass `k`, the
external interrupt arrives later in the same pass with both pins of `PORTA`
low, and nothing else happens. -/
def receive_then_debug (k rcreg sample : Nat) : Call :=
  { samples := fun _ => sample,
    sch := { setup := [],
             loop := fun j =>
               if j = k then
                 { body := [{ INTF := false, RCIF := true, PORTA_F0 := false,
                              PORTA_F1 := false, RCREG := rcreg },
                            { INTF := true, RCIF := false, PORTA_F0 := false,
                              PORTA_F1 := false, RCREG := 0 }], step := [] }
               else { body := [], step := [] },
             finish := [] } }

/-- The calls of a pass of the main loop in which the byte COIN is received
during the first pass of the first call and nothing else arrives. -/
def cancelled_first : Nat → Call :=
  fun i => if i = 0 then receive_at 0 COIN 0 else quiet 0

end DoorRinger

/-! ## Part 2. Theorems -/

namespace DoorButton

/-- The handler touches neither the counter, nor the ring type, nor the
serial log, and with `INTF` pending it leaves `press = 1`. -/
theorem interrupt_frame (s : State) :
    (interrupt s).lo_num = s.lo_num ∧ (interrupt s).hi_num = s.hi_num ∧
    (interrupt s).uart = s.uart ∧ (interrupt s).ring_type = s.ring_type := by
  unfold interrupt
  dsimp only
  split_ifs <;> simp

theorem interrupt_press (s : State) (h : s.INTF = true) : (interrupt s).press = 1 := by
  unfold interrupt
  dsimp only
  split_ifs <;> simp_all

theorem cooldown_frame (s : State) :
    (cooldown s).lo_num = s.lo_num ∧ (cooldown s).hi_num = s.hi_num ∧
    (cooldown s).uart = s.uart ∧ (cooldown s).ring_type = s.ring_type := by
  unfold cooldown
  split_ifs <;> simp

theorem determine_ring_type_frame (s : State) :
    (determine_ring_type s).lo_num = s.lo_num ∧
    (determine_ring_type s).hi_num = s.hi_num ∧
    (determine_ring_type s).uart = s.uart := by
  unfold determine_ring_type
  split_ifs <;> simp

theorem determine_ring_type_val (s : State) :
    (determine_ring_type s).ring_type =
      if s.lo_num = 0 then (if s.hi_num = 0 then COIN_MUSHROOM else COIN_1UP) else COIN := by
  unfold determine_ring_type
  split_ifs <;> rfl

theorem increment_val (s : State) :
    (increment s).lo_num = (if (s.lo_num + 1) % 256 = 10 then 0 else (s.lo_num + 1) % 256) ∧
    (increment s).hi_num =
      (if (s.lo_num + 1) % 256 = 10 then
        (if (s.hi_num + 1) % 256 = 10 then 0 else (s.hi_num + 1) % 256)
       else s.hi_num) ∧
    (increment s).uart = s.uart := by
  unfold increment
  dsimp only
  split_ifs <;> simp

/-- The counter after the increment of lines 119-128, as a pair. -/
theorem loop_body_confirmed (s : State) (h : s.press ≠ 0) :
    (loop_body s false).lo_num =
      (if (s.lo_num + 1) % 256 = 10 then 0 else (s.lo_num + 1) % 256) ∧
    (loop_body s false).hi_num =
      (if (s.lo_num + 1) % 256 = 10 then
        (if (s.hi_num + 1) % 256 = 10 then 0 else (s.hi_num + 1) % 256)
       else s.hi_num) ∧
    (loop_body s false).uart =
      s.uart ++ [if (loop_body s false).lo_num = 0 then
                   (if (loop_body s false).hi_num = 0 then COIN_MUSHROOM else COIN_1UP)
                 else COIN] := by
  simp only [loop_body, h, ne_eq, not_false_eq_true, if_true, send]
  simp only [(cooldown_frame _).1, (cooldown_frame _).2.1, (cooldown_frame _).2.2.1,
    (determine_ring_type_frame _).1, (determine_ring_type_frame _).2.1,
    (determine_ring_type_frame _).2.2, determine_ring_type_val,
    (increment_val _).1, (increment_val _).2.1, (increment_val _).2.2]
  simp

theorem confirmed_press_val (s : State) :
    (confirmed_press s).lo_num =
      (if (s.lo_num + 1) % 256 = 10 then 0 else (s.lo_num + 1) % 256) ∧
    (confirmed_press s).hi_num =
      (if (s.lo_num + 1) % 256 = 10 then
        (if (s.hi_num + 1) % 256 = 10 then 0 else (s.hi_num + 1) % 256)
       else s.hi_num) ∧
    (confirmed_press s).uart =
      s.uart ++ [if (confirmed_press s).lo_num = 0 then
                   (if (confirmed_press s).hi_num = 0 then COIN_MUSHROOM else COIN_1UP)
                 else COIN] := by
  have hp : (interrupt { s with INTF := true }).press ≠ 0 := by
    rw [interrupt_press _ rfl]; decide
  have h := loop_body_confirmed _ hp
  have hf := interrupt_frame { s with INTF := true }
  simp only [hf.1, hf.2.1, hf.2.2.1] at h
  exact h

theorem after_presses_counter (n : Nat) :
    (after_presses n).lo_num = n % 10 ∧ (after_presses n).hi_num = n / 10 % 10 := by
  induction n with
  | zero => exact ⟨rfl, rfl⟩
  | succ k ih =>
    obtain ⟨hl, hh⟩ := ih
    have h := confirmed_press_val (after_presses k)
    simp only [after_presses]
    rw [h.1, h.2.1, hl, hh]
    constructor
    · split_ifs <;> omega
    · split_ifs <;> omega

theorem after_presses_uart (n : Nat) :
    (after_presses n).uart = (List.range n).map (fun k => code_of_count (k + 1)) := by
  induction n with
  | zero => rfl
  | succ k ih =>
    have h := (confirmed_press_val (after_presses k)).2.2
    have hc := after_presses_counter (k + 1)
    simp only [after_presses] at hc ⊢
    rw [h, ih, hc.1, hc.2, List.range_succ, List.map_append, List.map_singleton]
    congr 2
    unfold code_of_count
    split_ifs <;> first | rfl | omega

/-- C3. After `n` confirmed presses from `lo_num = 0`, `hi_num = 0` the
counter holds `lo_num = n mod 10` and `hi_num = (n div 10) mod 10`, and the
counter after `n + 100` presses is the counter after `n` presses.  (Stated
for every `n`, which covers every `n >= 1`.) -/
theorem press_counter (n : Nat) :
    (after_presses n).lo_num = n % 10 ∧
    (after_presses n).hi_num = n / 10 % 10 ∧
    (after_presses (n + 100)).lo_num = (after_presses n).lo_num ∧
    (after_presses (n + 100)).hi_num = (after_presses n).hi_num := by
  have h := after_presses_counter n
  have h' := after_presses_counter (n + 100)
  refine ⟨h.1, h.2, ?_, ?_⟩
  · rw [h'.1, h.1]; omega
  · rw [h'.2, h.2]; omega

/-- C4. The `n`-th confirmed press (`n = k + 1`) appends exactly one byte to
the serial log; that byte is COIN_MUSHROOM when `n mod 100 = 0`, COIN_1UP
when `n mod 10 = 0` and `n mod 100 != 0`, COIN otherwise; it is the value
`determine_ring_type` computes from the counter after the increment; and the
first twelve bytes are COIN x9, COIN_1UP, COIN x2. -/
theorem command_classification (k : Nat) :
    (after_presses (k + 1)).uart =
      (after_presses k).uart ++
        [if (k + 1) % 100 = 0 then COIN_MUSHROOM
         else if (k + 1) % 10 = 0 then COIN_1UP
         else COIN] ∧
    (after_presses (k + 1)).uart =
      (after_presses k).uart ++
        [(determine_ring_type (after_presses (k + 1))).ring_type] ∧
    (after_presses 12).uart =
      [COIN, COIN, COIN, COIN, COIN, COIN, COIN, COIN, COIN, COIN_1UP, COIN, COIN] := by
  have hu := after_presses_uart
  have hc := after_presses_counter (k + 1)
  have h1 : (after_presses (k + 1)).uart =
      (after_presses k).uart ++ [code_of_count (k + 1)] := by
    rw [hu, hu, List.range_succ, List.map_append, List.map_singleton]
  refine ⟨h1, ?_, ?_⟩
  · rw [h1, determine_ring_type_val, hc.1, hc.2]
    congr 2
    unfold code_of_count
    split_ifs <;> first | rfl | omega
  · rw [hu]; decide

theorem bounce_frame (t : State) :
    (loop_body t true).lo_num = t.lo_num ∧
    (loop_body t true).hi_num = t.hi_num ∧
    (loop_body t true).ring_type = t.ring_type ∧
    (loop_body t true).uart = t.uart := by
  unfold loop_body
  split_ifs with h1 h2
  · exact absurd h2 (by decide)
  · simp
  · simp

/-- C5. Whatever the state, a pass of the loop body in which `PORTB.F0`
reads 1 after the debounce delay leaves `lo_num`, `hi_num` and `ring_type`
as they were and writes no byte to the serial link; the interrupt handler,
which may run during the delay, does not touch them either. -/
theorem bounce_rejected (s : State) :
    (loop_body s true).lo_num = s.lo_num ∧
    (loop_body s true).hi_num = s.hi_num ∧
    (loop_body s true).ring_type = s.ring_type ∧
    (loop_body s true).uart = s.uart ∧
    (loop_body (interrupt s) true).lo_num = s.lo_num ∧
    (loop_body (interrupt s) true).hi_num = s.hi_num ∧
    (loop_body (interrupt s) true).uart = s.uart := by
  have hf := interrupt_frame s
  have key : ∀ t : State, (loop_body t true).lo_num = t.lo_num ∧
      (loop_body t true).hi_num = t.hi_num ∧
      (loop_body t true).ring_type = t.ring_type ∧
      (loop_body t true).uart = t.uart := by
    intro t
    unfold loop_body
    split_ifs with h1 h2
    · exact absurd h2 (by decide)
    · simp
    · simp
  refine ⟨(key s).1, (key s).2.1, (key s).2.2.1, (key s).2.2.2, ?_, ?_, ?_⟩
  · rw [(key _).1, hf.1]
  · rw [(key _).2.1, hf.2.1]
  · rw [(key _).2.2.2, hf.2.2.1]

end DoorButton


namespace HexConvert

/-! ### Formatting and parsing of hexadecimal fields -/

theorem fmtX_two (n : Nat) (h : n < 256) : fmtX 2 n = hexDigits 2 n := by
  unfold fmtX
  rw [if_pos (by omega)]

theorem hexDigit_mod (n : Nat) : hexDigit (n % 16) = hexDigit n := by
  unfold hexDigit
  rw [Nat.mod_mod]

theorem fmtX_four (n : Nat) (h : n < 65536) :
    fmtX 4 n = hexDigits 2 (n / 256) ++ hexDigits 2 (n % 256) := by
  unfold fmtX
  rw [if_pos (by omega)]
  have e1 : hexDigit (n / 16 / 16 / 16) = hexDigit (n / 256 / 16) := by
    congr 1; omega
  have e2 : hexDigit (n / 16 / 16) = hexDigit (n / 256) := by
    congr 1; omega
  have e3 : hexDigit (n / 16) = hexDigit (n % 256 / 16) := by
    rw [← hexDigit_mod (n / 16), ← hexDigit_mod (n % 256 / 16)]
    congr 1; omega
  have e4 : hexDigit n = hexDigit (n % 256) := by
    rw [← hexDigit_mod n, ← hexDigit_mod (n % 256)]
    congr 1; omega
  simp [hexDigits, e1, e2, e3, e4]

theorem hexVal_hexDigit_lt : ∀ n, n < 16 → hexVal (hexDigit n) = some n := by
  decide

theorem hexVal_hexDigit (n : Nat) : hexVal (hexDigit n) = some (n % 16) := by
  rw [← hexDigit_mod]
  exact hexVal_hexDigit_lt _ (Nat.mod_lt _ (by decide))

theorem hexDigit_ne_newline_lt : ∀ n, n < 16 → hexDigit n ≠ '\n' := by
  decide

theorem hexDigit_ne_newline (n : Nat) : hexDigit n ≠ '\n' := by
  rw [← hexDigit_mod]
  exact hexDigit_ne_newline_lt _ (Nat.mod_lt _ (by decide))

theorem parsePairs_flatMap (bs : List Nat) (h : ∀ b ∈ bs, b < 256) :
    parsePairs (bs.flatMap (hexDigits 2)) = some bs := by
  induction bs with
  | nil => rfl
  | cons b rest ih =>
    have hb : b < 256 := h b (List.mem_cons_self _ _)
    have hr := ih (fun x hx => h x (List.mem_cons_of_mem _ hx))
    have e : 16 * (b / 16 % 16) + b % 16 = b := by omega
    rw [List.flatMap_cons]
    show parsePairs (hexDigit (b / 16) :: hexDigit b :: rest.flatMap (hexDigits 2)) = _
    simp only [parsePairs, hexVal_hexDigit, hr, e]

theorem parseRecord_line (r : Record) (h : r.wf) : parseRecord (line r) = some r := by
  obtain ⟨hc, hc256, ha, ht, hd, hk⟩ := h
  have hall : ∀ b ∈ [r.count, r.address / 256, r.address % 256, r.rtype] ++ r.data ++
      [r.checksum], b < 256 := by
    intro b hb
    simp only [List.mem_append, List.mem_cons, List.mem_singleton, List.not_mem_nil,
      or_false] at hb
    rcases hb with ((rfl | rfl | rfl | rfl) | hb) | rfl
    · exact hc256
    · omega
    · omega
    · exact ht
    · exact hd b hb
    · exact hk
  have hp := parsePairs_flatMap _ hall
  have e : 256 * (r.address / 256) + r.address % 256 = r.address := by omega
  have hlen : (r.data ++ [r.checksum]).length = r.count + 1 := by
    rw [List.length_append, List.length_singleton, hc]
  have htake : (r.data ++ [r.checksum]).take r.count = r.data := by
    rw [hc, List.take_left]
  have hget : (r.data ++ [r.checksum]).getD r.count 0 = r.checksum := by
    rw [hc, List.getD_eq_getElem?_getD, List.getElem?_append_right (Nat.le_refl _)]
    simp
  unfold line parseRecord
  dsimp only
  rw [if_pos rfl, hp]
  simp only [List.cons_append, List.nil_append]
  rw [if_pos hlen, htake, hget, e]

theorem splitLines_append (l rest : List Char) (h : ∀ c ∈ l, c ≠ '\n') :
    splitLines (l ++ '\n' :: rest) = l :: splitLines rest := by
  induction l with
  | nil => simp [splitLines]
  | cons c l ih =>
    have hc : c ≠ '\n' := h c (List.mem_cons_self _ _)
    have hl := ih (fun x hx => h x (List.mem_cons_of_mem _ hx))
    rw [List.cons_append, splitLines, if_neg hc, hl]

theorem line_no_newline (r : Record) : ∀ c ∈ line r, c ≠ '\n' := by
  intro c hc
  unfold line at hc
  rcases List.mem_cons.mp hc with rfl | hc
  · decide
  · obtain ⟨b, _, hb⟩ := List.mem_flatMap.mp hc
    simp only [hexDigits, List.nil_append, List.cons_append, List.mem_cons,
      List.not_mem_nil, or_false] at hb
    rcases hb with rfl | rfl <;> exact hexDigit_ne_newline _

theorem render_all_cons (r : Record) (rs : List Record) :
    render_all (r :: rs) = line r ++ '\n' :: render_all rs := by
  simp [render_all, render]

theorem render_all_append (rs ts : List Record) :
    render_all (rs ++ ts) = render_all rs ++ render_all ts := by
  simp [render_all]

theorem splitLines_render_all (rs : List Record) :
    splitLines (render_all rs) = rs.map line := by
  induction rs with
  | nil => rfl
  | cons r rs ih =>
    rw [render_all_cons, splitLines_append _ _ (line_no_newline r), ih, List.map_cons]

theorem parseLines_map_line (rs : List Record) (h : ∀ r ∈ rs, r.wf) :
    parseLines (rs.map line) = some rs := by
  induction rs with
  | nil => rfl
  | cons r rs ih =>
    have h1 := parseRecord_line r (h r (List.mem_cons_self _ _))
    have h2 := ih (fun x hx => h x (List.mem_cons_of_mem _ hx))
    simp only [List.map_cons, parseLines, h1, h2]

/-- Reading back the text of well-formed records gives the records. -/
theorem records_render_all (rs : List Record) (h : ∀ r ∈ rs, r.wf) :
    records (render_all rs) = some rs := by
  unfold records
  rw [splitLines_render_all, parseLines_map_line rs h]

/-! ### The text of the records the writer prints -/

theorem range_map_getD (l : List Byte) (n : Nat) (h : n ≤ l.length) :
    (List.range n).map (fun i => l.getD i 0) = l.take n := by
  apply List.ext_getElem
  · simp [h]
  · intro i h1 h2
    simp only [List.length_map, List.length_range] at h1
    simp only [List.getElem_map, List.getElem_range, List.getElem_take]
    rw [List.getD_eq_getElem?_getD, List.getElem?_eq_getElem (by omega)]
    rfl

theorem negate8_lt (c : Nat) : negate8 c < 256 := by
  unfold negate8
  omega

theorem hexDigits_map_val (bs : List Byte) :
    bs.flatMap (fun b => fmtX 2 b.val) = (bs.map Fin.val).flatMap (hexDigits 2) := by
  induction bs with
  | nil => rfl
  | cons b bs ih =>
    rw [List.flatMap_cons, List.map_cons, List.flatMap_cons, ih, fmtX_two _ b.isLt]

theorem cbuf_of_eq (hf : HexFile) (h : hf.buf_cnt ≤ hf.buf.length) :
    cbuf_of hf = ((hf.buf.take hf.buf_cnt).map Fin.val).flatMap (hexDigits 2) := by
  rw [← hexDigits_map_val, ← range_map_getD _ _ h]
  unfold cbuf_of
  induction (List.range hf.buf_cnt) with
  | nil => rfl
  | cons a l ih => rw [List.flatMap_cons, List.map_cons, List.flatMap_cons, ih]

theorem data_record_text_eq (hf : HexFile) (k : Nat)
    (h1 : hf.out_cnt = 16 * k % SIZE_T) (h2 : hf.buf_cnt ≤ 16) (h3 : hf.buf.length = 16) :
    data_record_text hf = render (data_record (16 * k) (hf.buf.take hf.buf_cnt)) := by
  have hle : hf.buf_cnt ≤ hf.buf.length := by omega
  have hlen : (hf.buf.take hf.buf_cnt).length = hf.buf_cnt := by
    rw [List.length_take]; omega
  have hoff : hf.out_cnt / 16 * 16 % 65536 = 16 * k % 65536 := by
    rw [h1]; unfold SIZE_T; omega
  unfold data_record_text render line data_record
  dsimp only
  rw [hoff, range_map_getD _ _ hle, cbuf_of_eq _ hle, hlen,
    fmtX_two _ (by omega : hf.buf_cnt < 256), fmtX_two 0 (by omega),
    fmtX_two _ (negate8_lt _), fmtX_four _ (by omega : 16 * k % 65536 < 65536)]
  simp only [List.flatMap_append, List.flatMap_cons, List.flatMap_nil, List.append_nil,
    List.cons_append, List.nil_append, List.append_assoc]

theorem bank_record_text_eq (n : Nat) :
    bank_record_text (n % SIZE_T) = render (bank_record n) := by
  have hoff : n % SIZE_T / 65536 % 65536 = n / 65536 % 65536 := by
    unfold SIZE_T; omega
  unfold bank_record_text render line bank_record
  dsimp only
  rw [hoff, fmtX_two 2 (by omega), fmtX_two 4 (by omega), fmtX_two _ (negate8_lt _),
    fmtX_four 0 (by omega), fmtX_four _ (by omega : n / 65536 % 65536 < 65536)]
  simp only [List.flatMap_append, List.flatMap_cons, List.flatMap_nil, List.append_nil,
    List.cons_append, List.nil_append, List.append_assoc]

theorem eof_eq : eof = render eof_record := by
  decide

/-- What `emit` does to a struct whose `out_cnt` is `16 k` (as a `size_t`)
and whose buffer holds `buf_cnt <= 16` bytes. -/
theorem emit_eq (hf : HexFile) (k : Nat)
    (h1 : hf.out_cnt = 16 * k % SIZE_T) (h2 : hf.buf_cnt ≤ 16) (h3 : hf.buf.length = 16) :
    emit hf =
      { out := hf.out ++ render (data_record (16 * k) (hf.buf.take hf.buf_cnt)) ++
          (if (16 * k + hf.buf_cnt) % 65536 = 0 then render (bank_record (16 * k + hf.buf_cnt))
           else []),
        out_cnt := (16 * k + hf.buf_cnt) % SIZE_T,
        buf := hf.buf,
        buf_cnt := 0 } := by
  have hcnt : (hf.out_cnt + hf.buf_cnt) % SIZE_T = (16 * k + hf.buf_cnt) % SIZE_T := by
    rw [h1]; unfold SIZE_T; omega
  have hcond : ((16 * k + hf.buf_cnt) % SIZE_T % 65536 = 0) ↔
      ((16 * k + hf.buf_cnt) % 65536 = 0) := by
    unfold SIZE_T; omega
  unfold emit
  dsimp only
  rw [hcnt, data_record_text_eq hf k h1 h2 h3, bank_record_text_eq]
  by_cases hc : (16 * k + hf.buf_cnt) % 65536 = 0
  · rw [if_pos (hcond.mpr hc), if_pos hc]
  · rw [if_neg (fun h => hc (hcond.mp h)), if_neg hc, List.append_nil]

/-! ### The invariant of the writer -/

theorem take_set_succ (l : List Byte) (c : Nat) (b : Byte) (h : c < l.length) :
    (l.set c b).take (c + 1) = l.take c ++ [b] := by
  induction l generalizing c with
  | nil => simp at h
  | cons a l ih =>
    cases c with
    | zero => simp
    | succ c =>
      simp only [List.length_cons] at h
      simp [ih c (by omega)]

theorem chunk_append (s t : List Byte) (k : Nat) (h : 16 * k + 16 ≤ s.length) :
    chunk (s ++ t) k = chunk s k := by
  unfold chunk
  rw [List.drop_append_of_le_length (by omega),
    List.take_append_of_le_length (by rw [List.length_drop]; omega)]

theorem full_records_append (s t : List Byte) (n : Nat) (h : 16 * n ≤ s.length) :
    full_records (s ++ t) n = full_records s n := by
  unfold full_records
  induction n with
  | zero => rfl
  | succ m ih =>
    rw [List.range_succ, List.flatMap_append, List.flatMap_append, ih (by omega)]
    simp only [List.flatMap_cons, List.flatMap_nil, List.append_nil, chunk_records]
    rw [chunk_append s t m (by omega)]

theorem full_records_succ (s : List Byte) (n : Nat) :
    full_records s (n + 1) = full_records s n ++ chunk_records s n := by
  unfold full_records
  rw [List.range_succ, List.flatMap_append]
  simp

theorem Inv_open : Inv hexfile_open [] := by
  refine ⟨rfl, rfl, rfl, rfl, rfl⟩

/-- One pass of the loop on a byte from outside keeps the invariant. -/
theorem Inv_pass (hf : HexFile) (s bytes : List Byte) (size pos : Nat) (h : Inv hf s) :
    Inv (loop_pass (Source.external bytes) false size pos hf) (s ++ [bytes.getD pos 0]) := by
  obtain ⟨ho, hc, hl, ht, hout⟩ := h
  have hlt : s.length % 16 < 16 := Nat.mod_lt _ (by decide)
  have hlen : (s ++ [bytes.getD pos 0]).length = s.length + 1 := by simp
  have hk : 16 * (s.length / 16) ≤ s.length := by omega
  have hinc : (hf.buf_cnt + 1) % SIZE_T = s.length % 16 + 1 := by
    rw [hc]; unfold SIZE_T; omega
  have htake : ((hf.buf.set hf.buf_cnt (bytes.getD pos 0)).take (s.length % 16 + 1)) =
      s.drop (16 * (s.length / 16)) ++ [bytes.getD pos 0] := by
    rw [hc, take_set_succ _ _ _ (by omega), ht]
  unfold loop_pass
  dsimp only [fetch]
  rw [hinc]
  by_cases hfull : s.length % 16 + 1 = 16
  · rw [if_pos (Or.inl hfull)]
    have hemit := emit_eq
      (HexFile.mk hf.out hf.out_cnt (hf.buf.set hf.buf_cnt (bytes.getD pos 0))
        (s.length % 16 + 1))
      (s.length / 16) ho (by dsimp only; omega) (by simp [hl])
    rw [hemit]
    have hq : (s.length + 1) / 16 = s.length / 16 + 1 := by omega
    have hr : (s.length + 1) % 16 = 0 := by omega
    have hchunk : chunk (s ++ [bytes.getD pos 0]) (s.length / 16) =
        s.drop (16 * (s.length / 16)) ++ [bytes.getD pos 0] := by
      unfold chunk
      rw [List.drop_append_of_le_length hk, List.take_of_length_le]
      rw [List.length_append, List.length_drop, List.length_singleton]
      omega
    refine ⟨?_, ?_, ?_, ?_, ?_⟩
    · dsimp only; rw [hlen, hq, hfull]; congr 1
    · dsimp only; rw [hlen, hr]
    · simpa using hl
    · rw [hlen, hr, hq, List.take_zero, List.drop_eq_nil_of_le (by rw [hlen]; omega)]
    · dsimp only
      rw [hlen, hq, full_records_succ, render_all_append,
        full_records_append _ _ _ hk, ← hout, chunk_records, hchunk, hfull, ← htake, hfull]
      by_cases hb : (16 * (s.length / 16) + 16) % 65536 = 0
      · rw [if_pos hb, if_pos hb]
        simp [render_all]
      · rw [if_neg hb, if_neg hb]
        simp [render_all]
  · have hno : ¬ (s.length % 16 + 1 = 16 ∨ ((false : Bool) = true ∧ size = 0)) := by
      rintro (h | ⟨h, _⟩)
      · exact hfull h
      · exact absurd h (by decide)
    rw [if_neg hno]
    have hq : (s.length + 1) / 16 = s.length / 16 := by omega
    have hr : (s.length + 1) % 16 = s.length % 16 + 1 := by omega
    refine ⟨?_, ?_, ?_, ?_, ?_⟩
    · dsimp only; rw [hlen, hq, ho]
    · dsimp only; rw [hlen, hr]
    · simpa using hl
    · dsimp only
      rw [hlen, hr, hq, htake, List.drop_append_of_le_length hk]
    · dsimp only
      rw [hlen, hq, full_records_append _ _ _ hk, hout]

theorem Inv_write_loop (bytes : List Byte) :
    ∀ (size pos : Nat) (hf : HexFile) (s : List Byte), Inv hf s → pos + size ≤ bytes.length →
      Inv (write_loop (Source.external bytes) false size pos hf)
        (s ++ (bytes.drop pos).take size) := by
  intro size
  induction size with
  | zero =>
    intro pos hf s h _
    simpa [write_loop] using h
  | succ n ih =>
    intro pos hf s h hle
    have hpos : pos < bytes.length := by omega
    have hd : (bytes.drop pos).take (n + 1) =
        bytes.getD pos 0 :: (bytes.drop (pos + 1)).take n := by
      rw [List.drop_eq_getElem_cons hpos, List.take_succ_cons,
        List.getD_eq_getElem?_getD, List.getElem?_eq_getElem hpos]
      rfl
    have h1 := ih (pos + 1) _ _ (Inv_pass hf s bytes n pos h) (by omega)
    rw [write_loop, hd]
    simpa using h1

/-- A write from a buffer outside the struct appends the bytes to the stream. -/
theorem Inv_write_bytes (hf : HexFile) (s bytes : List Byte) (h : Inv hf s) :
    Inv (write_bytes hf bytes) (s ++ bytes) := by
  have h1 := Inv_write_loop bytes bytes.length 0 hf s h (by omega)
  simp only [List.drop_zero, List.take_length] at h1
  unfold write_bytes hexfile_write
  simpa using h1

theorem Inv_foldl (ws : List (List Byte)) :
    ∀ (hf : HexFile) (s : List Byte), Inv hf s →
      Inv (ws.foldl write_bytes hf) (s ++ ws.flatten) := by
  induction ws with
  | nil => intro hf s h; simpa using h
  | cons w ws ih =>
    intro hf s h
    have h1 := ih _ _ (Inv_write_bytes hf s w h)
    simpa [List.foldl_cons, List.flatten_cons, List.append_assoc] using h1

theorem Inv_write_all (ws : List (List Byte)) : Inv (write_all ws) ws.flatten := by
  have h := Inv_foldl ws hexfile_open [] Inv_open
  simpa [write_all] using h

theorem set_getD_self (l : List Byte) (i : Nat) (h : i < l.length) :
    l.set i (l.getD i 0) = l := by
  induction l generalizing i with
  | nil => rfl
  | cons a l ih =>
    cases i with
    | zero => rfl
    | succ i =>
      simp only [List.length_cons] at h
      simp only [List.set_cons_succ, List.getD_cons_succ, ih i (by omega)]

/-- The flush of `size > 0` buffered bytes: the buffer is copied onto itself
and one record is written at the last byte. -/
theorem flush_loop :
    ∀ (size pos : Nat) (hf : HexFile), hf.buf_cnt = pos → hf.buf.length = 16 →
      pos + size + 1 ≤ 15 →
      write_loop Source.internal true (size + 1) pos hf =
        emit { hf with buf_cnt := pos + size + 1 } := by
  intro size
  induction size with
  | zero =>
    intro pos hf hc hl hle
    have hinc : (pos + 1) % SIZE_T = pos + 1 := by unfold SIZE_T; omega
    simp only [write_loop, loop_pass, fetch]
    rw [hc, set_getD_self _ _ (by omega), hinc]
    simp
  | succ n ih =>
    intro pos hf hc hl hle
    have hinc : (pos + 1) % SIZE_T = pos + 1 := by unfold SIZE_T; omega
    have hno : ¬ (pos + 1 = 16 ∨ (True ∧ n + 1 = 0)) := by omega
    rw [write_loop]
    simp only [loop_pass, fetch]
    rw [hc, set_getD_self _ _ (by omega), hinc, if_neg hno]
    rw [ih (pos + 1) (HexFile.mk hf.out hf.out_cnt hf.buf (pos + 1)) rfl hl (by omega)]
    congr 2
    omega

/-- Closing the file after the stream `s` writes exactly the expected records. -/
theorem close_of_Inv (hf : HexFile) (s : List Byte) (h : Inv hf s) :
    hexfile_close hf = render_all (expected_records s) := by
  obtain ⟨ho, hc, hl, ht, hout⟩ := h
  have hlt : s.length % 16 < 16 := Nat.mod_lt _ (by decide)
  unfold hexfile_close hexfile_write expected_records tail_records
  simp only [decide_True, if_true]
  by_cases hz : s.length % 16 = 0
  · rw [hc, hz, if_pos rfl]
    simp only [write_loop, List.append_nil]
    rw [hout, render_all_append, eof_eq]
    simp [render_all]
  · obtain ⟨n, hn⟩ : ∃ n, hf.buf_cnt = n + 1 := ⟨hf.buf_cnt - 1, by omega⟩
    rw [if_neg hz, hn, flush_loop n 0 (HexFile.mk hf.out hf.out_cnt hf.buf 0) rfl hl (by omega)]
    have hemit := emit_eq (HexFile.mk hf.out hf.out_cnt hf.buf (0 + n + 1))
      (s.length / 16) ho (by dsimp only; omega) hl
    have hno : ¬ (16 * (s.length / 16) + (0 + n + 1)) % 65536 = 0 := by omega
    rw [hemit]
    dsimp only
    rw [if_neg hno, hout, eof_eq, render_all_append, render_all_append]
    have e : 0 + n + 1 = s.length % 16 := by omega
    rw [e, ht]
    simp [render_all]

/-- Refinement: the text left by any sequence of writes followed by a close
is the text of the expected records of the concatenated stream. -/
theorem close_write_all (ws : List (List Byte)) :
    hexfile_close (write_all ws) = render_all (expected_records ws.flatten) :=
  close_of_Inv _ _ (Inv_write_all ws)

/-! ### The expected records are well formed and carry valid checksums -/

theorem data_record_wf (off : Nat) (bytes : List Byte) (h : bytes.length ≤ 16) :
    (data_record off bytes).wf := by
  refine ⟨?_, ?_, ?_, ?_, ?_, ?_⟩
  · simp [data_record]
  · simp only [data_record]; omega
  · simp only [data_record]; omega
  · simp [data_record]
  · intro b hb
    simp only [data_record, List.mem_map] at hb
    obtain ⟨x, _, rfl⟩ := hb
    exact x.isLt
  · exact negate8_lt _

theorem bank_record_wf (off : Nat) : (bank_record off).wf := by
  refine ⟨rfl, by simp [bank_record], by simp [bank_record], by simp [bank_record], ?_,
    negate8_lt _⟩
  intro b hb
  simp only [bank_record, List.mem_cons, List.mem_singleton, List.not_mem_nil, or_false] at hb
  rcases hb with rfl | rfl <;> omega

theorem eof_record_wf : eof_record.wf := by
  refine ⟨rfl, by decide, by decide, by decide, ?_, by decide⟩
  intro b hb
  simp [eof_record] at hb

theorem chunk_length_le (s : List Byte) (k : Nat) : (chunk s k).length ≤ 16 := by
  unfold chunk
  rw [List.length_take]
  omega

/-- Every expected record is a data record of at most 16 bytes, a bank
record, or the end-of-file record. -/
theorem mem_expected_records (s : List Byte) (r : Record) (h : r ∈ expected_records s) :
    (∃ off bytes, bytes.length ≤ 16 ∧ r = data_record off bytes) ∨
    (∃ off, r = bank_record off) ∨ r = eof_record := by
  unfold expected_records at h
  rcases List.mem_append.mp h with h | h
  · rcases List.mem_append.mp h with h | h
    · unfold full_records at h
      obtain ⟨k, _, hk⟩ := List.mem_flatMap.mp h
      unfold chunk_records at hk
      rcases List.mem_cons.mp hk with rfl | hk
      · exact Or.inl ⟨_, _, chunk_length_le s k, rfl⟩
      · split_ifs at hk
        · rw [List.mem_singleton] at hk
          exact Or.inr (Or.inl ⟨_, hk⟩)
        · simp at hk
    · unfold tail_records at h
      split_ifs at h
      · simp at h
      · rw [List.mem_singleton] at h
        refine Or.inl ⟨_, _, ?_, h⟩
        rw [List.length_drop]
        omega
  · rw [List.mem_singleton] at h
    exact Or.inr (Or.inr h)

theorem expected_records_wf (s : List Byte) : ∀ r ∈ expected_records s, r.wf := by
  intro r h
  rcases mem_expected_records s r h with ⟨off, bytes, hb, rfl⟩ | ⟨off, rfl⟩ | rfl
  · exact data_record_wf off bytes hb
  · exact bank_record_wf off
  · exact eof_record_wf

/-- The records read back from the closed file are the expected ones. -/
theorem records_close (ws : List (List Byte)) :
    records (hexfile_close (write_all ws)) = some (expected_records ws.flatten) := by
  rw [close_write_all]
  exact records_render_all _ (expected_records_wf _)

theorem add_bytes_mod (bs : List Byte) :
    ∀ c : Nat, add_bytes c bs % 256 = (c + (bs.map Fin.val).sum) % 256 := by
  induction bs with
  | nil => intro c; simp [add_bytes]
  | cons b bs ih =>
    intro c
    have h := ih ((c + b.val) % 256)
    unfold add_bytes at h ⊢
    rw [List.foldl_cons, h, List.map_cons, List.sum_cons]
    omega

theorem data_record_total (off : Nat) (bytes : List Byte) :
    (data_record off bytes).total % 256 = 0 := by
  have h := add_bytes_mod bytes
    ((bytes.length + 0 + off % 65536 % 256 + off % 65536 / 256 % 256) % 256)
  unfold Record.total data_record negate8
  dsimp only
  omega

theorem bank_record_total (off : Nat) : (bank_record off).total % 256 = 0 := by
  unfold Record.total bank_record negate8
  simp only [List.sum_cons, List.sum_nil]
  omega

theorem expected_records_total (s : List Byte) :
    ∀ r ∈ expected_records s, r.total % 256 = 0 := by
  intro r h
  rcases mem_expected_records s r h with ⟨off, bytes, _, rfl⟩ | ⟨off, rfl⟩ | rfl
  · exact data_record_total off bytes
  · exact bank_record_total off
  · decide

theorem mem_full_records_expected (s : List Byte) (r : Record)
    (h : r ∈ full_records s (s.length / 16)) : r ∈ expected_records s := by
  unfold expected_records
  exact List.mem_append_left _ (List.mem_append_left _ h)

/-- C2. The text left by any sequence of `hexfile_write` calls followed by
`hexfile_close` reads back as a list of records (data records of type 00,
extended-linear-address records of type 04, the end-of-file record) whose
text it is, and in every one of them byte count + address high byte +
address low byte + record type + sum of the data bytes + checksum byte is 0
modulo 256; the same holds of the text written before the close. -/
theorem checksum_valid (ws : List (List Byte)) :
    (∃ rs, records (hexfile_close (write_all ws)) = some rs ∧
      render_all rs = hexfile_close (write_all ws) ∧
      ∀ r ∈ rs, (r.count + r.address / 256 + r.address % 256 + r.rtype + r.data.sum +
        r.checksum) % 256 = 0) ∧
    (∃ rs, records (write_all ws).out = some rs ∧
      render_all rs = (write_all ws).out ∧
      ∀ r ∈ rs, (r.count + r.address / 256 + r.address % 256 + r.rtype + r.data.sum +
        r.checksum) % 256 = 0) := by
  have hout : (write_all ws).out =
      render_all (full_records ws.flatten (ws.flatten.length / 16)) :=
    (Inv_write_all ws).2.2.2.2
  refine ⟨⟨expected_records ws.flatten, records_close ws, (close_write_all ws).symm,
    expected_records_total ws.flatten⟩,
    ⟨full_records ws.flatten (ws.flatten.length / 16), ?_, hout.symm, ?_⟩⟩
  · rw [hout]
    exact records_render_all _
      (fun r hr => expected_records_wf _ r (mem_full_records_expected _ r hr))
  · intro r hr
    exact expected_records_total _ r (mem_full_records_expected _ r hr)

/-! ### Reading the records back into an image -/

theorem enumFrom_map_add (l : List Nat) (c : Nat) :
    ∀ n, (l.enumFrom n).map (fun p => (c + p.1, p.2)) = l.enumFrom (c + n) := by
  induction l with
  | nil => intro n; rfl
  | cons a l ih =>
    intro n
    simp only [List.enumFrom_cons, List.map_cons, ih (n + 1)]
    rfl

theorem place_data_record (im : Image) (off : Nat) (bytes : List Byte) :
    place im (data_record off bytes) =
      { im with cells := im.cells ++
          (bytes.map Fin.val).enumFrom (im.upper * 65536 + off % 65536) } := by
  have h := enumFrom_map_add (bytes.map Fin.val) (im.upper * 65536 + off % 65536) 0
  have ht : (data_record off bytes).rtype = 0 := rfl
  rw [Nat.add_zero] at h
  unfold place
  rw [if_pos ht]
  simp only [data_record, List.enum, h]

theorem place_bank_record (im : Image) (off : Nat) (h : off < 2 ^ 32) :
    place im (bank_record off) = { im with upper := off / 65536 } := by
  have e : off / 65536 % 65536 / 256 * 256 + off / 65536 % 65536 % 256 = off / 65536 := by
    omega
  have ht : (bank_record off).rtype = 4 := rfl
  have ht0 : ¬ (bank_record off).rtype = 0 := by rw [ht]; decide
  unfold place
  rw [if_neg ht0, if_pos ht]
  simp only [bank_record, List.getD_cons_zero, List.getD_cons_succ, e]

theorem take_succ_chunk (s : List Byte) (n : Nat) :
    s.take (16 * (n + 1)) = s.take (16 * n) ++ chunk s n := by
  unfold chunk
  rw [show 16 * (n + 1) = 16 * n + 16 by omega, List.take_add]

theorem foldl_place_full (s : List Byte) (hs : s.length < 2 ^ 32) :
    ∀ n, 16 * n ≤ s.length →
      (full_records s n).foldl place { upper := 0, cells := [] } =
        { upper := 16 * n / 65536, cells := ((s.take (16 * n)).map Fin.val).enum } := by
  intro n
  induction n with
  | zero => intro _; rfl
  | succ n ih =>
    intro hn
    have hlen : (s.take (16 * n)).length = 16 * n := by
      rw [List.length_take]; omega
    have hoff : 16 * n / 65536 * 65536 + 16 * n % 65536 = 16 * n := by omega
    rw [full_records_succ, List.foldl_append, ih (by omega), chunk_records,
      List.foldl_cons, place_data_record]
    dsimp only
    rw [hoff, take_succ_chunk, List.map_append, List.enum_append, List.length_map, hlen]
    by_cases hb : (16 * n + 16) % 65536 = 0
    · rw [if_pos hb, List.foldl_cons, List.foldl_nil, place_bank_record _ _ (by omega)]
      simp only [Image.mk.injEq, and_true]
      omega
    · rw [if_neg hb, List.foldl_nil]
      simp only [Image.mk.injEq, and_true]
      omega

theorem foldl_place_expected (s : List Byte) (hs : s.length < 2 ^ 32) :
    ((expected_records s).foldl place { upper := 0, cells := [] }).cells =
      (s.map Fin.val).enum := by
  have hk : 16 * (s.length / 16) ≤ s.length := by omega
  have hlen : (s.take (16 * (s.length / 16))).length = 16 * (s.length / 16) := by
    rw [List.length_take]; omega
  have hoff : 16 * (s.length / 16) / 65536 * 65536 + 16 * (s.length / 16) % 65536 =
      16 * (s.length / 16) := by omega
  unfold expected_records tail_records
  rw [List.foldl_append, List.foldl_append, foldl_place_full s hs _ hk]
  have heof : ∀ im : Image, place im eof_record = im := by
    intro im
    have ht : eof_record.rtype = 1 := rfl
    unfold place
    rw [if_neg (by rw [ht]; decide), if_neg (by rw [ht]; decide)]
  by_cases hz : s.length % 16 = 0
  · rw [if_pos hz, List.foldl_nil, List.foldl_cons, List.foldl_nil, heof]
    dsimp only
    rw [List.take_of_length_le (by omega)]
  · rw [if_neg hz, List.foldl_cons, List.foldl_nil, List.foldl_cons, List.foldl_nil, heof,
      place_data_record]
    dsimp only
    rw [hoff]
    conv_rhs => rw [← List.take_append_drop (16 * (s.length / 16)) s]
    rw [List.map_append, List.enum_append, List.length_map, hlen]

/-- C1. For every list of byte sequences of total length below 2^32 written
by successive `hexfile_write` calls on a freshly opened file and followed by
`hexfile_close`, reading the emitted text back (a type-04 record sets the
upper 16 address bits, a type-00 record places its data bytes from
`upper * 65536 + address` on) places, in this order, byte 0 of the
concatenation at address 0, byte 1 at address 1, and so on to the last byte:
no gap, no overlap, nothing else. -/
theorem hex_round_trip (ws : List (List Byte)) (h : ws.flatten.length < 2 ^ 32) :
    decode (hexfile_close (write_all ws)) = some ((ws.flatten.map Fin.val).enum) := by
  unfold decode
  rw [records_close]
  dsimp only
  rw [foldl_place_expected _ h]

theorem hex_round_trip_witness :
    ([[1, 2, 3], [4]] : List (List Byte)).flatten.length < 2 ^ 32 ∧
    decode (hexfile_close (write_all [[1, 2, 3], [4]])) =
      some [(0, 1), (1, 2), (2, 3), (3, 4)] :=
  ⟨by decide, hex_round_trip [[1, 2, 3], [4]] (by decide)⟩

/-! ### The layout of the expected records -/

theorem data_bytes_append (a b : List Record) :
    data_bytes (a ++ b) = data_bytes a + data_bytes b := by
  simp [data_bytes]

theorem running_append (P : Nat → Record → Prop) (a b : List Record) :
    ∀ off, running P off (a ++ b) ↔ running P off a ∧ running P (off + data_bytes a) b := by
  induction a with
  | nil => intro off; simp [running, data_bytes]
  | cons r a ih =>
    intro off
    have e : off + carried r + data_bytes a = off + data_bytes (r :: a) := by
      simp [data_bytes]; omega
    rw [List.cons_append]
    show P off r ∧ running P (off + carried r) (a ++ b) ↔ _
    rw [ih, e]
    show _ ↔ (P off r ∧ running P (off + carried r) a) ∧ _
    rw [and_assoc]

theorem running_split (P : Nat → Record → Prop) (rs pre post : List Record) (r : Record)
    (off : Nat) (h : running P off rs) (hs : rs = pre ++ r :: post) :
    P (off + data_bytes pre) r := by
  rw [hs, running_append] at h
  exact h.2.1

theorem chunk_length (s : List Byte) (k : Nat) (h : 16 * k + 16 ≤ s.length) :
    (chunk s k).length = 16 := by
  unfold chunk
  rw [List.length_take, List.length_drop]
  omega

theorem carried_data_record (off : Nat) (bytes : List Byte) :
    carried (data_record off bytes) = bytes.length := rfl

theorem carried_bank_record (off : Nat) : carried (bank_record off) = 0 := rfl

theorem data_bytes_chunk_records (s : List Byte) (k : Nat) (h : 16 * k + 16 ≤ s.length) :
    data_bytes (chunk_records s k) = 16 := by
  unfold chunk_records data_bytes
  split_ifs <;>
    simp [carried_data_record, carried_bank_record, chunk_length s k h]

theorem data_bytes_full_records (s : List Byte) :
    ∀ n, 16 * n ≤ s.length → data_bytes (full_records s n) = 16 * n := by
  intro n
  induction n with
  | zero => intro _; rfl
  | succ n ih =>
    intro h
    rw [full_records_succ, data_bytes_append, ih (by omega),
      data_bytes_chunk_records s n (by omega)]
    omega

theorem data_bytes_tail_records (s : List Byte) :
    data_bytes (tail_records s) = s.length % 16 := by
  unfold tail_records
  split_ifs with h
  · simp [data_bytes, h]
  · simp only [data_bytes, List.map_cons, List.map_nil, List.sum_cons, List.sum_nil,
      carried_data_record, List.length_drop]
    omega

theorem data_bytes_expected_records (s : List Byte) :
    data_bytes (expected_records s) = s.length := by
  unfold expected_records
  rw [data_bytes_append, data_bytes_append, data_bytes_full_records s _ (by omega),
    data_bytes_tail_records]
  simp only [data_bytes, List.map_cons, List.map_nil, List.sum_cons, List.sum_nil]
  have : carried eof_record = 0 := rfl
  omega

/-- A property of records at their running offset holds throughout the
expected records once it holds for the three kinds of record at the offsets
where they are printed. -/
theorem running_expected (P : Nat → Record → Prop) (s : List Byte)
    (hdata : ∀ off bytes, off % 16 = 0 → off + bytes.length ≤ s.length →
      bytes.length ≤ 16 → P off (data_record off bytes))
    (hbank : ∀ off, off ≤ s.length → off % 65536 = 0 → P off (bank_record off))
    (heof : P s.length eof_record) :
    running P 0 (expected_records s) := by
  have hfull : ∀ n, 16 * n ≤ s.length → running P 0 (full_records s n) := by
    intro n
    induction n with
    | zero => intro _; trivial
    | succ n ih =>
      intro h
      rw [full_records_succ, running_append, data_bytes_full_records s n (by omega)]
      refine ⟨ih (by omega), ?_⟩
      have hc := chunk_length s n (by omega)
      unfold chunk_records
      simp only [running, carried_data_record, hc, Nat.zero_add]
      refine ⟨hdata _ _ (by omega) (by omega) (by omega), ?_⟩
      split_ifs with hb
      · exact ⟨hbank _ (by omega) hb, trivial⟩
      · trivial
  unfold expected_records
  rw [running_append, running_append, data_bytes_append,
    data_bytes_full_records s _ (by omega), data_bytes_tail_records]
  refine ⟨⟨hfull _ (by omega), ?_⟩, ?_⟩
  · unfold tail_records
    split_ifs with hz
    · trivial
    · simp only [running, Nat.zero_add, and_true]
      refine hdata _ _ (by omega) ?_ ?_ <;> rw [List.length_drop] <;> omega
  · simp only [running, Nat.zero_add, and_true]
    have e : 16 * (s.length / 16) + s.length % 16 = s.length := by omega
    rw [e]
    exact heof

theorem filter_bank_full (s : List Byte) :
    ∀ n, (full_records s n).filter (fun r => decide (r.rtype = 4)) =
      (List.range (16 * n / 65536)).map (fun j => bank_record (65536 * (j + 1))) := by
  intro n
  induction n with
  | zero => rfl
  | succ n ih =>
    have hd : ∀ off bytes, decide ((data_record off bytes).rtype = 4) = false := by
      intro off bytes; rfl
    have hb : ∀ off, decide ((bank_record off).rtype = 4) = true := by
      intro off; rfl
    rw [full_records_succ, List.filter_append, ih, chunk_records, List.filter_cons, hd]
    by_cases hc : (16 * n + 16) % 65536 = 0
    · have e1 : 16 * (n + 1) / 65536 = 16 * n / 65536 + 1 := by omega
      have e2 : 16 * n + 16 = 65536 * (16 * n / 65536 + 1) := by omega
      rw [if_pos hc, e1, List.range_succ, List.map_append, List.map_singleton, ← e2,
        List.filter_cons, hb]
      simp
    · have e1 : 16 * (n + 1) / 65536 = 16 * n / 65536 := by omega
      rw [if_neg hc, e1]
      simp

theorem filter_bank_expected (s : List Byte) :
    (expected_records s).filter (fun r => decide (r.rtype = 4)) =
      (List.range (s.length / 65536)).map (fun j => bank_record (65536 * (j + 1))) := by
  have e : 16 * (s.length / 16) / 65536 = s.length / 65536 := by omega
  have ht : (tail_records s).filter (fun r => decide (r.rtype = 4)) = [] := by
    unfold tail_records
    split_ifs
    · rfl
    · rfl
  unfold expected_records
  rw [List.filter_append, List.filter_append, filter_bank_full, ht, e]
  simp [eof_record]

theorem filter_data_full (s : List Byte) :
    ∀ n, (full_records s n).filter (fun r => decide (r.rtype = 0)) =
      (List.range n).map (fun j => data_record (16 * j) (chunk s j)) := by
  intro n
  induction n with
  | zero => rfl
  | succ n ih =>
    have hd : ∀ off bytes, decide ((data_record off bytes).rtype = 0) = true := by
      intro off bytes; rfl
    have hb : ∀ off, decide ((bank_record off).rtype = 0) = false := by
      intro off; rfl
    rw [full_records_succ, List.filter_append, ih, chunk_records,
      List.range_succ, List.map_append, List.map_singleton]
    split_ifs <;> simp [List.filter_cons, hd, hb]

theorem filter_data_expected (s : List Byte) :
    (expected_records s).filter (fun r => decide (r.rtype = 0)) =
      (List.range (s.length / 16)).map (fun j => data_record (16 * j) (chunk s j)) ++
        tail_records s := by
  have ht : (tail_records s).filter (fun r => decide (r.rtype = 0)) = tail_records s := by
    unfold tail_records
    split_ifs
    · rfl
    · rfl
  unfold expected_records
  rw [List.filter_append, List.filter_append, filter_data_full, ht]
  simp [eof_record]

theorem flatMap_chunk (s : List Byte) :
    ∀ n, ((List.range n).map (fun j => data_record (16 * j) (chunk s j))).flatMap
        (fun r => r.data) = (s.take (16 * n)).map Fin.val := by
  intro n
  induction n with
  | zero => rfl
  | succ n ih =>
    rw [List.range_succ, List.map_append, List.flatMap_append, ih, take_succ_chunk,
      List.map_append]
    simp [data_record]

theorem flatMap_data_expected (s : List Byte) :
    ((expected_records s).filter (fun r => decide (r.rtype = 0))).flatMap (fun r => r.data) =
      s.map Fin.val := by
  rw [filter_data_expected, List.flatMap_append, flatMap_chunk]
  conv_rhs => rw [← List.take_append_drop (16 * (s.length / 16)) s]
  rw [List.map_append]
  congr 1
  unfold tail_records
  split_ifs with hz
  · rw [List.drop_eq_nil_of_le (by omega)]
    rfl
  · simp [data_record]

theorem bank_position (s : List Byte) (hs : s.length < 2 ^ 32) :
    running (fun off r => r.rtype = 4 →
        r.count = 2 ∧ r.address = 0 ∧
        off = 65536 * (256 * r.data.getD 0 0 + r.data.getD 1 0)) 0 (expected_records s) := by
  apply running_expected
  · intro off bytes _ _ _ h
    simp [data_record] at h
  · intro off hoff hmod _
    refine ⟨rfl, rfl, ?_⟩
    simp only [bank_record, List.getD_cons_zero, List.getD_cons_succ]
    omega
  · intro h
    simp [eof_record] at h

theorem data_address (s : List Byte) :
    running (fun off r => r.rtype = 0 → r.address = off % 65536) 0 (expected_records s) := by
  apply running_expected
  · intro off bytes _ _ _ _
    rfl
  · intro off _ _ h
    simp [bank_record] at h
  · intro h
    simp [eof_record] at h

theorem expected_records_eof (s : List Byte) :
    ∃ pre, expected_records s = pre ++ [eof_record] ∧ ∀ r ∈ pre, r.rtype ≠ 1 := by
  refine ⟨full_records s (s.length / 16) ++ tail_records s, rfl, ?_⟩
  intro r hr
  rcases List.mem_append.mp hr with h | h
  · unfold full_records at h
    obtain ⟨k, _, hk⟩ := List.mem_flatMap.mp h
    unfold chunk_records at hk
    rcases List.mem_cons.mp hk with rfl | h1
    · simp [data_record]
    · split_ifs at h1
      · rw [List.mem_singleton] at h1
        rw [h1]
        simp [bank_record]
      · simp at h1
  · unfold tail_records at h
    split_ifs at h
    · simp at h
    · rw [List.mem_singleton] at h
      rw [h]
      simp [data_record]

/-- C6. For every sequence of writes totalling `N < 2^32` bytes followed by
`hexfile_close`, the text reads back as records `rs` such that: the type-04
records are, in order, one for each `j = 1 .. N div 65536` (one for each
65536-byte boundary the output offset reaches), the `j`-th carrying `j` as
its two data bytes; each type-04 record has byte count 2 and address 0 and
the records before it carry exactly `65536 * j` data bytes, so it comes after
all data below the boundary and before any data at or above it; the last
record is the end-of-file record, no other record has type 01, and the text
ends with `:00000001FF` and a newline; the byte counts of the data records
sum to `N`.  For three payloads of 10, 70000 and 5 bytes there is exactly
one type-04 record and the byte counts sum to 70015. -/
theorem extended_address_and_eof (ws : List (List Byte))
    (h : ws.flatten.length < 2 ^ 32) :
    ∃ rs, records (hexfile_close (write_all ws)) = some rs ∧
      render_all rs = hexfile_close (write_all ws) ∧
      (rs.filter (fun r => decide (r.rtype = 4))).map (fun r => r.data) =
        (List.range (ws.flatten.length / 65536)).map
          (fun j => [(j + 1) / 256, (j + 1) % 256]) ∧
      (∀ pre r post, rs = pre ++ r :: post → r.rtype = 4 →
        r.count = 2 ∧ r.address = 0 ∧
        data_bytes pre = 65536 * (256 * r.data.getD 0 0 + r.data.getD 1 0)) ∧
      (∃ pre, rs = pre ++ [eof_record] ∧ ∀ r ∈ pre, r.rtype ≠ 1) ∧
      (∃ pre, hexfile_close (write_all ws) = pre ++ ":00000001FF\n".toList) ∧
      data_bytes rs = ws.flatten.length ∧
      (ws.map List.length = [10, 70000, 5] →
        (rs.filter (fun r => decide (r.rtype = 4))).length = 1 ∧ data_bytes rs = 70015) := by
  have hN : ws.flatten.length < 4294967296 := h
  refine ⟨expected_records ws.flatten, records_close ws, (close_write_all ws).symm,
    ?_, ?_, expected_records_eof _, ?_, data_bytes_expected_records _, ?_⟩
  · rw [filter_bank_expected, List.map_map]
    apply List.map_congr_left
    intro j hj
    rw [List.mem_range] at hj
    simp only [Function.comp, bank_record]
    have e : 65536 * (j + 1) / 65536 % 65536 = j + 1 := by omega
    rw [e]
  · intro pre r post hsplit ht
    have hrun := running_split _ _ pre post r 0 (bank_position _ h) hsplit
    rw [Nat.zero_add] at hrun
    exact hrun ht
  · obtain ⟨pre, hpre, _⟩ := expected_records_eof ws.flatten
    refine ⟨render_all pre, ?_⟩
    rw [close_write_all, hpre, render_all_append]
    congr 1
  · intro hl
    have hlen : ws.flatten.length = 70015 := by
      rw [List.length_flatten, hl]
      rfl
    rw [data_bytes_expected_records, filter_bank_expected, List.length_map,
      List.length_range, hlen]
    exact ⟨by decide, rfl⟩

theorem extended_address_and_eof_witness :
    ([List.replicate 10 0, List.replicate 70000 0, List.replicate 5 0] :
        List (List Byte)).flatten.length < 2 ^ 32 ∧
    ∃ rs, records (hexfile_close (write_all
        [List.replicate 10 0, List.replicate 70000 0, List.replicate 5 0])) = some rs ∧
      (rs.filter (fun r => decide (r.rtype = 4))).length = 1 ∧ data_bytes rs = 70015 := by
  have hlen : ([List.replicate 10 0, List.replicate 70000 0, List.replicate 5 0] :
      List (List Byte)).flatten.length < 2 ^ 32 := by
    simp only [List.length_flatten, List.map_cons, List.map_nil, List.length_replicate,
      List.sum_cons, List.sum_nil]
    omega
  obtain ⟨rs, h1, _, _, _, _, _, _, h8⟩ := extended_address_and_eof _ hlen
  refine ⟨hlen, rs, h1, h8 ?_⟩
  simp only [List.map_cons, List.map_nil, List.length_replicate]

theorem data_counts_full (s : List Byte) (r : Record)
    (h : r ∈ (List.range (s.length / 16)).map (fun j => data_record (16 * j) (chunk s j))) :
    r.count = 16 ∧ r.data.length = 16 := by
  obtain ⟨j, hj, rfl⟩ := List.mem_map.mp h
  rw [List.mem_range] at hj
  have hc := chunk_length s j (by omega)
  simp [data_record, hc]

theorem data_counts_tail (s : List Byte) (r : Record) (h : r ∈ tail_records s) :
    r.data.length = r.count ∧ 1 ≤ r.count ∧ r.count ≤ 16 := by
  unfold tail_records at h
  split_ifs at h with hz
  · simp at h
  · rw [List.mem_singleton] at h
    rw [h]
    refine ⟨by simp [data_record], ?_, ?_⟩
    · show 1 ≤ (s.drop (16 * (s.length / 16))).length
      rw [List.length_drop]; omega
    · show (s.drop (16 * (s.length / 16))).length ≤ 16
      rw [List.length_drop]; omega

/-- C7. The text left by any sequence of `hexfile_write` calls followed by
`hexfile_close` reads back as records `rs` of type 00, 04 or 01 in which the
records of type 00 carry exactly the bytes written, in order; the address
field of every record of type 00 is the low 16 bits of the number of data
bytes carried by the records before it; every record of type 00 carries as
many data bytes as its byte count says, between 1 and 16; and every record
of type 00 but the last carries exactly 16. -/
theorem data_record_shape (ws : List (List Byte)) :
    ∃ rs, records (hexfile_close (write_all ws)) = some rs ∧
      render_all rs = hexfile_close (write_all ws) ∧
      (∀ r ∈ rs, r.rtype = 0 ∨ r.rtype = 4 ∨ r.rtype = 1) ∧
      (rs.filter (fun r => decide (r.rtype = 0))).flatMap (fun r => r.data) =
        ws.flatten.map Fin.val ∧
      (∀ pre r post, rs = pre ++ r :: post → r.rtype = 0 →
        r.address = data_bytes pre % 65536) ∧
      (∀ r ∈ rs.filter (fun r => decide (r.rtype = 0)),
        r.data.length = r.count ∧ 1 ≤ r.count ∧ r.count ≤ 16) ∧
      (∀ r ∈ (rs.filter (fun r => decide (r.rtype = 0))).dropLast, r.count = 16) := by
  refine ⟨expected_records ws.flatten, records_close ws, (close_write_all ws).symm,
    ?_, flatMap_data_expected _, ?_, ?_, ?_⟩
  · intro r hr
    rcases mem_expected_records _ r hr with ⟨off, bytes, _, rfl⟩ | ⟨off, rfl⟩ | rfl
    · exact Or.inl rfl
    · exact Or.inr (Or.inl rfl)
    · exact Or.inr (Or.inr rfl)
  · intro pre r post hsplit ht
    have hrun := running_split _ _ pre post r 0 (data_address _) hsplit
    rw [Nat.zero_add] at hrun
    exact hrun ht
  · intro r hr
    rw [filter_data_expected] at hr
    rcases List.mem_append.mp hr with h | h
    · have hc := data_counts_full _ r h
      omega
    · exact data_counts_tail _ r h
  · intro r hr
    rw [filter_data_expected] at hr
    by_cases hz : ws.flatten.length % 16 = 0
    · have ht : tail_records ws.flatten = [] := by
        unfold tail_records
        rw [if_pos hz]
      rw [ht, List.append_nil] at hr
      exact (data_counts_full _ r (List.mem_of_mem_dropLast hr)).1
    · have ht : tail_records ws.flatten =
          [data_record (16 * (ws.flatten.length / 16))
            (ws.flatten.drop (16 * (ws.flatten.length / 16)))] := by
        unfold tail_records
        rw [if_neg hz]
      rw [ht, List.dropLast_concat] at hr
      exact (data_counts_full _ r hr).1

/-! ### The wave file reader and the run of the tool -/

/-- The two ways `process_wavfile` ends: the file is rejected and the struct
is left as it was, or all checks pass and the bytes from index 44 on are
written. -/
theorem process_wavfile_cases (hf : HexFile) (wav : List Byte) :
    process_wavfile hf wav = reject hf ∨
    (44 ≤ wav.length ∧ wav.length < 0x80000000 ∧ u32 wav 40 = wav.length - 44 ∧
      ¬ violates_listed_check wav ∧
      process_wavfile hf wav =
        { rc := 0, hf := write_bytes hf (wav.drop 44),
          report := some { offset := hexfile_tell hf, length := wav.length - 44,
                           sample_rate := u32 wav 24 } }) := by
  unfold process_wavfile
  dsimp only
  by_cases h0 : 0x80000000 ≤ wav.length
  · exact Or.inl (if_pos h0)
  rw [if_neg h0]
  by_cases h1 : wav.length = 0
  · exact Or.inl (if_pos h1)
  rw [if_neg h1]
  by_cases h2 : wav.length < 12 + 24 + 12 - 4
  · exact Or.inl (if_pos h2)
  rw [if_neg h2]
  by_cases h3 : tag wav 0 ≠ RIFF
  · exact Or.inl (if_pos h3)
  rw [if_neg h3]
  by_cases h4 : u32 wav 4 ≠ wav.length - 8
  · exact Or.inl (if_pos h4)
  rw [if_neg h4]
  by_cases h5 : tag wav 8 ≠ WAVE
  · exact Or.inl (if_pos h5)
  rw [if_neg h5]
  by_cases h6 : tag wav 12 ≠ FMT_
  · exact Or.inl (if_pos h6)
  rw [if_neg h6]
  by_cases h7 : u32 wav 16 ≠ 24 - 8
  · exact Or.inl (if_pos h7)
  rw [if_neg h7]
  by_cases h8 : u16 wav 20 ≠ 1
  · exact Or.inl (if_pos h8)
  rw [if_neg h8]
  by_cases h9 : u16 wav 22 ≠ 1
  · exact Or.inl (if_pos h9)
  rw [if_neg h9]
  by_cases h10 : u32 wav 24 ≠ 8000 ∧ u32 wav 24 ≠ 11025 ∧ u32 wav 24 ≠ 22050
  · exact Or.inl (if_pos h10)
  rw [if_neg h10]
  by_cases h11 : u32 wav 24 ≠ u32 wav 28
  · exact Or.inl (if_pos h11)
  rw [if_neg h11]
  by_cases h12 : u16 wav 32 ≠ 1
  · exact Or.inl (if_pos h12)
  rw [if_neg h12]
  by_cases h13 : u16 wav 34 ≠ 8
  · exact Or.inl (if_pos h13)
  rw [if_neg h13]
  by_cases h14 : tag wav 36 ≠ DATA
  · exact Or.inl (if_pos h14)
  rw [if_neg h14]
  by_cases h15 : u32 wav 40 ≠ wav.length - 44
  · exact Or.inl (if_pos h15)
  rw [if_neg h15]
  right
  have hlen : 44 ≤ wav.length := by omega
  have hsz : (wav.drop 44).length = u32 wav 40 := by
    rw [List.length_drop]; omega
  refine ⟨hlen, by omega, by omega, ?_, ?_⟩
  · unfold violates_listed_check
    push_neg at h3 h5 h6 h8 h9 h10 h11 h12 h13 h14 ⊢
    refine ⟨h3, h5, h6, h14, ?_, h8, h9, ?_, h11.symm, h12, h13⟩
    · omega
    · intro a b
      exact h10 a b
  · unfold write_bytes
    rw [hsz]
    have e : u32 wav 40 = wav.length - 44 := by omega
    rw [e]

theorem reject_rc (hf : HexFile) : (reject hf).rc ≠ 0 := by
  simp [reject]

theorem hexfile_tell_of_Inv (hf : HexFile) (s : List Byte) (h : Inv hf s) :
    hexfile_tell hf = s.length % SIZE_T := by
  obtain ⟨ho, hc, _, _, _⟩ := h
  unfold hexfile_tell
  rw [ho, hc]
  unfold SIZE_T
  omega

/-- A run in which every file is accepted: the text, the reports and the
facts established about every file. -/
theorem process_all_ok :
    ∀ (files : List (List Byte)) (hf : HexFile) (reps : List Report) (s : List Byte),
      Inv hf s → (process_all hf reps files).rc = 0 →
      (process_all hf reps files).text =
        hexfile_close (files.foldl (fun h f => write_bytes h (f.drop 44)) hf) ∧
      (process_all hf reps files).reports = reps ++ expected_reports s.length files ∧
      ∀ f ∈ files, 44 ≤ f.length ∧ u32 f 40 = f.length - 44 ∧ ¬ violates_listed_check f := by
  intro files
  induction files with
  | nil =>
    intro hf reps s _ _
    refine ⟨rfl, ?_, ?_⟩
    · simp [process_all, expected_reports]
    · intro f hf'
      simp at hf'
  | cons wav rest ih =>
    intro hf reps s hinv hrc
    rcases process_wavfile_cases hf wav with hrej | ⟨h44, _, h40, hnv, hacc⟩
    · exfalso
      rw [process_all, hrej] at hrc
      simp [reject] at hrc
    · have htell := hexfile_tell_of_Inv hf s hinv
      have hstep : process_all hf reps (wav :: rest) =
          process_all (write_bytes hf (wav.drop 44))
            (reps ++ [{ offset := s.length % SIZE_T, length := wav.length - 44,
                        sample_rate := u32 wav 24 }]) rest := by
        rw [process_all, hacc, htell]
        simp
      rw [hstep] at hrc ⊢
      have hinv' := Inv_write_bytes hf s (wav.drop 44) hinv
      obtain ⟨h1, h2, h3⟩ := ih _ _ _ hinv' hrc
      refine ⟨?_, ?_, ?_⟩
      · rw [h1, List.foldl_cons]
      · rw [h2, List.length_append, List.length_drop, List.append_assoc]
        rfl
      · intro f hf'
        rcases List.mem_cons.mp hf' with rfl | hf'
        · exact ⟨h44, h40, hnv⟩
        · exact h3 f hf'

theorem foldl_write_payloads (files : List (List Byte)) :
    ∀ hf : HexFile, files.foldl (fun h f => write_bytes h (f.drop 44)) hf =
      (files.map (fun f => f.drop 44)).foldl write_bytes hf := by
  induction files with
  | nil => intro hf; rfl
  | cons f fs ih => intro hf; rw [List.foldl_cons, List.map_cons, List.foldl_cons, ih]

theorem expected_reports_length (files : List (List Byte)) :
    ∀ off, (expected_reports off files).length = files.length := by
  induction files with
  | nil => intro off; rfl
  | cons f fs ih => intro off; simp [expected_reports, ih]

theorem expected_reports_get (files : List (List Byte)) :
    ∀ (off i : Nat) (f : List Byte), files[i]? = some f →
      (expected_reports off files)[i]? =
        some { offset := (off + ((files.take i).map (fun g => g.length - 44)).sum) % SIZE_T,
               length := f.length - 44, sample_rate := u32 f 24 } := by
  induction files with
  | nil => intro off i f h; simp at h
  | cons g gs ih =>
    intro off i f h
    cases i with
    | zero =>
      simp only [List.getElem?_cons_zero, Option.some.injEq] at h
      subst h
      simp [expected_reports]
    | succ i =>
      simp only [List.getElem?_cons_succ] at h
      have h1 := ih (off + (g.length - 44)) i f h
      simp only [expected_reports, List.getElem?_cons_succ, h1, List.take_succ_cons,
        List.map_cons, List.sum_cons, Nat.add_assoc]

theorem sum_take_le (l : List Nat) (i : Nat) : (l.take i).sum ≤ l.sum := by
  conv_rhs => rw [← List.take_append_drop i l]
  rw [List.sum_append]
  omega

/-- C8 as amended.  For every run in which all files are accepted and the
payloads total less than 2^32 bytes, there is one report per file; the offset
reported for the `i`-th file is the sum of the payload lengths of the files
before it, which is the value of `hexfile_tell` after the writes of those
payloads (`out_cnt + buf_cnt`, so bytes still in the buffer are counted), and
the reported length is the length of the `i`-th payload. -/
theorem reported_offsets (files : List (List Byte)) (hvalid : (main files).rc = 0)
    (hN : (files.map (fun f => (f.drop 44).length)).sum < 2 ^ 32) :
    (main files).reports.length = files.length ∧
    ∀ i f, files[i]? = some f →
      ∃ r, (main files).reports[i]? = some r ∧
        r.offset = ((files.take i).map (fun g => (g.drop 44).length)).sum ∧
        r.offset = hexfile_tell (write_all ((files.take i).map (fun g => g.drop 44))) ∧
        r.length = (f.drop 44).length := by
  have hN' : (files.map (fun f => (f.drop 44).length)).sum < 4294967296 := hN
  obtain ⟨_, hrep, _⟩ := process_all_ok files hexfile_open [] [] Inv_open hvalid
  have hrep' : (main files).reports = expected_reports 0 files := by
    unfold main
    rw [hrep]
    rfl
  have hfun : (fun g : List Byte => g.length - 44) = (fun g => (g.drop 44).length) := by
    funext g
    rw [List.length_drop]
  refine ⟨by rw [hrep', expected_reports_length], ?_⟩
  intro i f hf
  have hget := expected_reports_get files 0 i f hf
  have hle := sum_take_le (files.map (fun f => (f.drop 44).length)) i
  rw [← List.map_take] at hle
  have hlt : ((files.take i).map (fun g => (g.drop 44).length)).sum < 4294967296 := by
    omega
  have hmod : (0 + ((files.take i).map (fun g => (g.drop 44).length)).sum) % SIZE_T =
      ((files.take i).map (fun g => (g.drop 44).length)).sum := by
    rw [Nat.zero_add]
    exact Nat.mod_eq_of_lt hlt
  rw [hfun, hmod] at hget
  refine ⟨_, by rw [hrep']; exact hget, rfl, ?_, ?_⟩
  · have hcomp : (List.length ∘ fun g : List Byte => g.drop 44) =
        (fun g => (g.drop 44).length) := rfl
    rw [hexfile_tell_of_Inv _ _ (Inv_write_all _), List.length_flatten, List.map_map, hcomp]
    exact (Nat.mod_eq_of_lt hlt).symm
  · dsimp only
    rw [List.length_drop]

theorem reported_offsets_witness :
    (main [header8000 3 ++ [7, 8, 9], header8000 2 ++ [1, 2]]).rc = 0 ∧
    (([header8000 3 ++ [7, 8, 9], header8000 2 ++ [1, 2]] : List (List Byte)).map
      (fun f => (f.drop 44).length)).sum < 2 ^ 32 ∧
    ∃ r, (main [header8000 3 ++ [7, 8, 9], header8000 2 ++ [1, 2]]).reports[1]? = some r ∧
      r.offset = 3 ∧ r.length = 2 := by
  have h1 : (main [header8000 3 ++ [7, 8, 9], header8000 2 ++ [1, 2]]).rc = 0 := by decide
  have h2 : (([header8000 3 ++ [7, 8, 9], header8000 2 ++ [1, 2]] : List (List Byte)).map
      (fun f => (f.drop 44).length)).sum < 2 ^ 32 := by decide
  obtain ⟨_, hp⟩ := reported_offsets _ h1 h2
  obtain ⟨r, hr, ho, _, hl⟩ := hp 1 (header8000 2 ++ [1, 2]) (by simp)
  exact ⟨h1, h2, r, hr, by rw [ho]; decide, by rw [hl]; decide⟩

/-- C9. For every file content that violates one of the listed checks (a
chunk identifier other than RIFF / WAVE / 'fmt ' / 'data', declared overall
size != file size - 8, audio format != 1, channel count != 1, sample rate
not in 8000, 11025, 22050, byte rate != sample rate, block alignment != 1,
bits per sample != 8) and every state of the hex file, `process_wavfile`
returns a non-zero status, reports nothing, and leaves the `HexFile` (text,
`out_cnt`, buffer, `buf_cnt`) exactly as it was. -/
theorem wav_validation (hf : HexFile) (wav : List Byte) (h : violates_listed_check wav) :
    (process_wavfile hf wav).rc ≠ 0 ∧ (process_wavfile hf wav).hf = hf ∧
    (process_wavfile hf wav).report = none := by
  rcases process_wavfile_cases hf wav with hrej | ⟨_, _, _, hnv, _⟩
  · rw [hrej]
    exact ⟨reject_rc hf, rfl, rfl⟩
  · exact absurd h hnv

theorem wav_validation_witness :
    violates_listed_check (header8000 3 ++ [7, 8]) ∧
    (process_wavfile (write_all [[1, 2, 3]]) (header8000 3 ++ [7, 8])).rc ≠ 0 ∧
    (process_wavfile (write_all [[1, 2, 3]]) (header8000 3 ++ [7, 8])).hf =
      write_all [[1, 2, 3]] ∧
    (process_wavfile (write_all [[1, 2, 3]]) (header8000 3 ++ [7, 8])).report = none := by
  have h : violates_listed_check (header8000 3 ++ [7, 8]) := by
    unfold violates_listed_check
    decide
  exact ⟨h, wav_validation _ _ h⟩

/-- C10. For every list of files that are all accepted, the hex file is what
the successive `hexfile_write` calls on the payloads leave, in argument
order, so its records are those of the concatenation of the payloads; the
payload of a file is its bytes from index 44 to the end, and its length is
the file size minus 44 and the declared size of the data chunk. -/
theorem payload_concatenation (files : List (List Byte)) (hvalid : (main files).rc = 0) :
    (main files).text = hexfile_close (write_all (files.map (fun f => f.drop 44))) ∧
    (main files).text =
      render_all (expected_records (files.map (fun f => f.drop 44)).flatten) ∧
    ∀ f ∈ files, 44 ≤ f.length ∧ (f.drop 44).length = f.length - 44 ∧
      u32 f 40 = (f.drop 44).length := by
  obtain ⟨htext, _, hfiles⟩ := process_all_ok files hexfile_open [] [] Inv_open hvalid
  have h1 : (main files).text = hexfile_close (write_all (files.map (fun f => f.drop 44))) := by
    unfold main write_all
    rw [htext, foldl_write_payloads]
  refine ⟨h1, by rw [h1, close_write_all], ?_⟩
  intro f hf
  obtain ⟨h44, h40, _⟩ := hfiles f hf
  refine ⟨h44, List.length_drop _ _, ?_⟩
  rw [List.length_drop, h40]

theorem payload_concatenation_witness :
    (main [header8000 3 ++ [7, 8, 9], header8000 2 ++ [1, 2]]).rc = 0 ∧
    (main [header8000 3 ++ [7, 8, 9], header8000 2 ++ [1, 2]]).text =
      hexfile_close (write_all [[7, 8, 9], [1, 2]]) := by
  have h1 : (main [header8000 3 ++ [7, 8, 9], header8000 2 ++ [1, 2]]).rc = 0 := by decide
  exact ⟨h1, (payload_concatenation _ h1).1⟩

end HexConvert

namespace DoorButton

/-! ### The bytes the button controller transmits -/

theorem loop_body_uart (s : State) (f0 : Bool) :
    (loop_body s f0).uart = s.uart ∨
    ∃ b, (b = COIN ∨ b = COIN_1UP ∨ b = COIN_MUSHROOM) ∧ (loop_body s f0).uart = s.uart ++ [b] := by
  by_cases hp : s.press ≠ 0
  · cases f0 with
    | true => exact Or.inl (bounce_frame s).2.2.2
    | false =>
      right
      have h := (loop_body_confirmed s hp).2.2
      refine ⟨_, ?_, h⟩
      split_ifs
      · exact Or.inr (Or.inr rfl)
      · exact Or.inr (Or.inl rfl)
      · exact Or.inl rfl
  · left
    unfold loop_body
    rw [if_neg hp]

theorem step_uart (s : State) (e : Event) :
    (step s e).uart = s.uart ∨
    ∃ b, (b = COIN ∨ b = COIN_1UP ∨ b = COIN_MUSHROOM) ∧ (step s e).uart = s.uart ++ [b] := by
  cases e with
  | irq t i =>
    left
    exact (interrupt_frame _).2.2.1
  | pass f0 => exact loop_body_uart s f0

theorem foldl_step_uart (events : List Event) :
    ∀ s : State, (∀ b ∈ s.uart, b = COIN ∨ b = COIN_1UP ∨ b = COIN_MUSHROOM) →
      ∀ b ∈ (events.foldl step s).uart, b = COIN ∨ b = COIN_1UP ∨ b = COIN_MUSHROOM := by
  induction events with
  | nil => intro s h; exact h
  | cons e es ih =>
    intro s h
    rw [List.foldl_cons]
    apply ih
    intro b hb
    rcases step_uart s e with heq | ⟨c, hc, heq⟩
    · rw [heq] at hb
      exact h b hb
    · rw [heq, List.mem_append, List.mem_singleton] at hb
      rcases hb with hb | rfl
      · exact h b hb
      · exact hc

/-- C18. In every state the button controller reaches from the start of its
main loop, by any sequence of interrupts and loop passes, each byte handed to
`soft_uart_write` is COIN (0), COIN_1UP (1) or COIN_MUSHROOM (2); it is none
of ITS_MARIO, OUTTA_TIME, DOWN_PIPE. -/
theorem button_vocabulary (events : List Event) (b : Nat) (hb : b ∈ (run events).uart) :
    (b = COIN ∨ b = COIN_1UP ∨ b = COIN_MUSHROOM) ∧
    b ≠ ITS_MARIO ∧ b ≠ OUTTA_TIME ∧ b ≠ DOWN_PIPE := by
  have h := foldl_step_uart events init (by intro x hx; simp [init] at hx) b hb
  refine ⟨h, ?_, ?_, ?_⟩ <;>
    rcases h with rfl | rfl | rfl <;> decide

theorem button_vocabulary_witness :
    (1 : Nat) ∈ (run ((List.replicate 10 [Event.irq true true, Event.pass false]).flatten)).uart ∧
    (((1 : Nat) = COIN ∨ (1 : Nat) = COIN_1UP ∨ (1 : Nat) = COIN_MUSHROOM) ∧
      (1 : Nat) ≠ ITS_MARIO ∧ (1 : Nat) ≠ OUTTA_TIME ∧ (1 : Nat) ≠ DOWN_PIPE) :=
  ⟨by decide,
    button_vocabulary ((List.replicate 10 [Event.irq true true, Event.pass false]).flatten) 1
      (by decide)⟩

end DoorButton

namespace HexConvert

/-! ### The writer does not depend on how the stream is cut into writes -/

theorem loop_pass_external (bytes : List Byte) (size pos : Nat) (hf : HexFile) :
    loop_pass (Source.external bytes) false size pos hf = push_byte hf (bytes.getD pos 0) := by
  unfold push_byte loop_pass
  simp [fetch]

theorem write_loop_external (bytes : List Byte) :
    ∀ (size pos : Nat) (hf : HexFile), pos + size ≤ bytes.length →
      write_loop (Source.external bytes) false size pos hf =
        ((bytes.drop pos).take size).foldl push_byte hf := by
  intro size
  induction size with
  | zero => intro pos hf _; simp [write_loop]
  | succ n ih =>
    intro pos hf hle
    have hpos : pos < bytes.length := by omega
    have hd : (bytes.drop pos).take (n + 1) =
        bytes.getD pos 0 :: (bytes.drop (pos + 1)).take n := by
      rw [List.drop_eq_getElem_cons hpos, List.take_succ_cons,
        List.getD_eq_getElem?_getD, List.getElem?_eq_getElem hpos]
      rfl
    rw [write_loop, loop_pass_external, ih (pos + 1) _ (by omega), hd, List.foldl_cons]

theorem write_bytes_eq_foldl (hf : HexFile) (bytes : List Byte) :
    write_bytes hf bytes = bytes.foldl push_byte hf := by
  have h := write_loop_external bytes bytes.length 0 hf (by omega)
  simp only [List.drop_zero, List.take_length] at h
  unfold write_bytes hexfile_write
  simpa using h

/-- C20. For every state of the `HexFile` (in particular every state reached
from `hexfile_open` by writes from outside buffers) and all byte sequences
`a` and `b`, `hexfile_write` of `a` followed by `hexfile_write` of `b` leaves
the struct that a single `hexfile_write` of `a ++ b` leaves: the same text,
`out_cnt`, `buf_cnt` and buffer.  Hence the closed file of a sequence of
writes is the closed file of one write of their concatenation. -/
theorem chunking_independence (hf : HexFile) (ws : List (List Byte)) (a b : List Byte) :
    write_bytes (write_bytes hf a) b = write_bytes hf (a ++ b) ∧
    (write_bytes (write_bytes (write_all ws) a) b).out = (write_bytes (write_all ws) (a ++ b)).out ∧
    (write_bytes (write_bytes (write_all ws) a) b).out_cnt =
      (write_bytes (write_all ws) (a ++ b)).out_cnt ∧
    (write_bytes (write_bytes (write_all ws) a) b).buf_cnt =
      (write_bytes (write_all ws) (a ++ b)).buf_cnt ∧
    (write_bytes (write_bytes (write_all ws) a) b).buf =
      (write_bytes (write_all ws) (a ++ b)).buf ∧
    write_all ws = write_all [ws.flatten] ∧
    hexfile_close (write_all ws) = hexfile_close (write_all [ws.flatten]) := by
  have key : ∀ (h : HexFile) (x y : List Byte),
      write_bytes (write_bytes h x) y = write_bytes h (x ++ y) := by
    intro h x y
    rw [write_bytes_eq_foldl, write_bytes_eq_foldl, write_bytes_eq_foldl, List.foldl_append]
  have hall : ∀ (l : List (List Byte)) (h : HexFile),
      l.foldl write_bytes h = write_bytes h l.flatten := by
    intro l
    induction l with
    | nil => intro h; simp [write_bytes_eq_foldl]
    | cons w l ih =>
      intro h
      rw [List.foldl_cons, ih, key, List.flatten_cons]
  have hone : write_all ws = write_all [ws.flatten] := by
    unfold write_all
    rw [hall ws, List.foldl_cons, List.foldl_nil]
  refine ⟨key hf a b, ?_, ?_, ?_, ?_, hone, by rw [hone]⟩ <;> rw [key]

/-! ### A run that stops at a rejected file -/

/-- Whether a file is accepted does not depend on the state of the hex file. -/
theorem process_wavfile_rc (hf hf' : HexFile) (wav : List Byte) :
    (process_wavfile hf wav).rc = (process_wavfile hf' wav).rc := by
  unfold process_wavfile
  dsimp only
  by_cases h0 : 0x80000000 ≤ wav.length
  · rw [if_pos h0, if_pos h0]; rfl
  rw [if_neg h0, if_neg h0]
  by_cases h1 : wav.length = 0
  · rw [if_pos h1, if_pos h1]; rfl
  rw [if_neg h1, if_neg h1]
  by_cases h2 : wav.length < 12 + 24 + 12 - 4
  · rw [if_pos h2, if_pos h2]; rfl
  rw [if_neg h2, if_neg h2]
  by_cases h3 : tag wav 0 ≠ RIFF
  · rw [if_pos h3, if_pos h3]; rfl
  rw [if_neg h3, if_neg h3]
  by_cases h4 : u32 wav 4 ≠ wav.length - 8
  · rw [if_pos h4, if_pos h4]; rfl
  rw [if_neg h4, if_neg h4]
  by_cases h5 : tag wav 8 ≠ WAVE
  · rw [if_pos h5, if_pos h5]; rfl
  rw [if_neg h5, if_neg h5]
  by_cases h6 : tag wav 12 ≠ FMT_
  · rw [if_pos h6, if_pos h6]; rfl
  rw [if_neg h6, if_neg h6]
  by_cases h7 : u32 wav 16 ≠ 24 - 8
  · rw [if_pos h7, if_pos h7]; rfl
  rw [if_neg h7, if_neg h7]
  by_cases h8 : u16 wav 20 ≠ 1
  · rw [if_pos h8, if_pos h8]; rfl
  rw [if_neg h8, if_neg h8]
  by_cases h9 : u16 wav 22 ≠ 1
  · rw [if_pos h9, if_pos h9]; rfl
  rw [if_neg h9, if_neg h9]
  by_cases h10 : u32 wav 24 ≠ 8000 ∧ u32 wav 24 ≠ 11025 ∧ u32 wav 24 ≠ 22050
  · rw [if_pos h10, if_pos h10]; rfl
  rw [if_neg h10, if_neg h10]
  by_cases h11 : u32 wav 24 ≠ u32 wav 28
  · rw [if_pos h11, if_pos h11]; rfl
  rw [if_neg h11, if_neg h11]
  by_cases h12 : u16 wav 32 ≠ 1
  · rw [if_pos h12, if_pos h12]; rfl
  rw [if_neg h12, if_neg h12]
  by_cases h13 : u16 wav 34 ≠ 8
  · rw [if_pos h13, if_pos h13]; rfl
  rw [if_neg h13, if_neg h13]
  by_cases h14 : tag wav 36 ≠ DATA
  · rw [if_pos h14, if_pos h14]; rfl
  rw [if_neg h14, if_neg h14]
  by_cases h15 : u32 wav 40 ≠ wav.length - 44
  · rw [if_pos h15, if_pos h15]; rfl
  rw [if_neg h15, if_neg h15]

theorem process_wavfile_rejected (hf : HexFile) (wav : List Byte)
    (h : (process_wavfile hf wav).rc ≠ 0) : process_wavfile hf wav = reject hf := by
  rcases process_wavfile_cases hf wav with hrej | ⟨_, _, _, _, hacc⟩
  · exact hrej
  · rw [hacc] at h
    exact absurd rfl h

theorem process_wavfile_accepted (hf : HexFile) (wav : List Byte)
    (h : (process_wavfile hf wav).rc = 0) :
    process_wavfile hf wav =
      { rc := 0, hf := write_bytes hf (wav.drop 44),
        report := some { offset := hexfile_tell hf, length := wav.length - 44,
                         sample_rate := u32 wav 24 } } := by
  rcases process_wavfile_cases hf wav with hrej | ⟨_, _, _, _, hacc⟩
  · rw [hrej] at h
    exact absurd h (reject_rc hf)
  · exact hacc

/-- A run whose first rejected file comes after the accepted files `pre`. -/
theorem process_all_stop (bad : List Byte) (post : List (List Byte))
    (hbad : (process_wavfile hexfile_open bad).rc ≠ 0) :
    ∀ (pre : List (List Byte)) (hf : HexFile) (reps : List Report),
      (∀ f ∈ pre, (process_wavfile hexfile_open f).rc = 0) →
      process_all hf reps (pre ++ bad :: post) =
        { rc := -1,
          text := hexfile_close ((pre.map (fun f => f.drop 44)).foldl write_bytes hf),
          reports := (process_all hf reps pre).reports } := by
  intro pre
  induction pre with
  | nil =>
    intro hf reps _
    have hrc : (process_wavfile hf bad).rc ≠ 0 := by
      rw [process_wavfile_rc hf hexfile_open]; exact hbad
    have hrej := process_wavfile_rejected hf bad hrc
    rw [List.nil_append]
    conv_lhs => rw [process_all, hrej]
    simp [reject, process_all]
  | cons f fs ih =>
    intro hf reps hpre
    have hrc : (process_wavfile hf f).rc = 0 := by
      rw [process_wavfile_rc hf hexfile_open]
      exact hpre f (List.mem_cons_self _ _)
    have hacc := process_wavfile_accepted hf f hrc
    have hrest := ih (write_bytes hf (f.drop 44))
      (reps ++ [{ offset := hexfile_tell hf, length := f.length - 44,
                  sample_rate := u32 f 24 }])
      (fun g hg => hpre g (List.mem_cons_of_mem _ hg))
    rw [List.cons_append, process_all, hacc]
    simp only [ne_eq, not_true_eq_false, if_false, Option.toList]
    rw [hrest, List.map_cons, List.foldl_cons]
    congr 1
    rw [process_all, hacc]
    simp only [ne_eq, not_true_eq_false, if_false, Option.toList]

theorem process_all_accept :
    ∀ (files : List (List Byte)) (hf : HexFile) (reps : List Report),
      (∀ f ∈ files, (process_wavfile hexfile_open f).rc = 0) →
      (process_all hf reps files).rc = 0 := by
  intro files
  induction files with
  | nil => intro hf reps _; rfl
  | cons f fs ih =>
    intro hf reps hall
    have hrc : (process_wavfile hf f).rc = 0 := by
      rw [process_wavfile_rc hf hexfile_open]
      exact hall f (List.mem_cons_self _ _)
    have hacc := process_wavfile_accepted hf f hrc
    rw [process_all, hacc]
    simp only [ne_eq, not_true_eq_false, if_false]
    exact ih _ _ (fun g hg => hall g (List.mem_cons_of_mem _ hg))

/-- C11. For every list of input files in which the file `bad` is the first
that `process_wavfile` rejects (the files `pre` before it are all accepted),
the tool exits with a non-zero status and the hex text it leaves is the text
a run over the files before it alone leaves: the closed file of the writes
of their payloads, which reads back as the expected records of their
concatenation (all data records, the extended-address records, the
end-of-file record last) and carries nothing of the rejected file or of the
files after it. -/
theorem failure_keeps_earlier_output (pre post : List (List Byte)) (bad : List Byte)
    (hpre : ∀ f ∈ pre, (process_wavfile hexfile_open f).rc = 0)
    (hbad : (process_wavfile hexfile_open bad).rc ≠ 0) :
    (main (pre ++ bad :: post)).rc ≠ 0 ∧
    (main pre).rc = 0 ∧
    (main (pre ++ bad :: post)).text = (main pre).text ∧
    (main (pre ++ bad :: post)).reports = (main pre).reports ∧
    (main (pre ++ bad :: post)).text =
      hexfile_close (write_all (pre.map (fun f => f.drop 44))) ∧
    records (main (pre ++ bad :: post)).text =
      some (expected_records (pre.map (fun f => f.drop 44)).flatten) ∧
    ∃ rs, expected_records (pre.map (fun f => f.drop 44)).flatten = rs ++ [eof_record] := by
  have hstop := process_all_stop bad post hbad pre hexfile_open [] hpre
  have hok : (main pre).rc = 0 := process_all_accept pre hexfile_open [] hpre
  obtain ⟨htext, _, _⟩ := process_all_ok pre hexfile_open [] [] Inv_open hok
  have hmain : (main pre).text = hexfile_close (write_all (pre.map (fun f => f.drop 44))) := by
    unfold main write_all
    rw [htext, foldl_write_payloads]
  have h1 : (main (pre ++ bad :: post)).text =
      hexfile_close (write_all (pre.map (fun f => f.drop 44))) := by
    unfold main write_all
    rw [hstop]
  refine ⟨?_, hok, by rw [h1, hmain], ?_, h1, by rw [h1, records_close], ?_⟩
  · unfold main
    rw [hstop]
    simp
  · unfold main
    rw [hstop]
  · exact ⟨_, rfl⟩

theorem failure_keeps_earlier_output_witness :
    (∀ f ∈ [header8000 3 ++ [7, 8, 9]], (process_wavfile hexfile_open f).rc = 0) ∧
    (process_wavfile hexfile_open (header8000 3 ++ [7, 8])).rc ≠ 0 ∧
    (main ([header8000 3 ++ [7, 8, 9]] ++ (header8000 3 ++ [7, 8]) ::
      [header8000 2 ++ [1, 2]])).rc ≠ 0 ∧
    (main ([header8000 3 ++ [7, 8, 9]] ++ (header8000 3 ++ [7, 8]) ::
      [header8000 2 ++ [1, 2]])).text = hexfile_close (write_all [[7, 8, 9]]) := by
  have h1 : ∀ f ∈ [header8000 3 ++ [7, 8, 9]], (process_wavfile hexfile_open f).rc = 0 := by
    decide
  have h2 : (process_wavfile hexfile_open (header8000 3 ++ [7, 8])).rc ≠ 0 := by decide
  have h := failure_keeps_earlier_output [header8000 3 ++ [7, 8, 9]]
    [header8000 2 ++ [1, 2]] (header8000 3 ++ [7, 8]) h1 h2
  exact ⟨h1, h2, h.1, h.2.2.2.2.1⟩

end HexConvert

namespace DoorRinger

/-! ### The interrupt handler -/

theorem external_path_frame (s : State) (f0 f1 : Bool) :
    (external_path s f0 f1).wave_scan = s.wave_scan ∧
    (external_path s f0 f1).log = s.log ∧
    (external_path s f0 f1).PORTC_F0 = s.PORTC_F0 ∧
    (external_path s f0 f1).PORTC_F1 = s.PORTC_F1 ∧
    (external_path s f0 f1).PORTC_F2 = s.PORTC_F2 := by
  unfold external_path
  dsimp only
  split_ifs <;> simp

theorem handler_frame (s : State) (e : Irq) :
    (interrupt s e).log = s.log ∧
    (interrupt s e).PORTC_F0 = s.PORTC_F0 ∧
    (interrupt s e).PORTC_F1 = s.PORTC_F1 ∧
    (interrupt s e).PORTC_F2 = s.PORTC_F2 := by
  have h := external_path_frame s e.PORTA_F0 e.PORTA_F1
  unfold interrupt receive_path
  dsimp only
  split_ifs <;> simp [h]

theorem interrupt_wave_scan (s : State) (e : Irq) :
    (interrupt s e).wave_scan = if e.RCIF = true then 0x80000000 else s.wave_scan := by
  have h := external_path_frame s e.PORTA_F0 e.PORTA_F1
  unfold interrupt receive_path
  dsimp only
  split_ifs <;> simp [h]

theorem interrupt_rx_congr (s t : State) (e : Irq) (h : s.rx_data = t.rx_data) :
    (interrupt s e).rx_data = (interrupt t e).rx_data := by
  unfold interrupt receive_path external_path
  dsimp only
  split_ifs <;> simp [h]

theorem run_irqs_append (s : State) (a b : List Irq) :
    run_irqs s (a ++ b) = run_irqs (run_irqs s a) b := by
  unfold run_irqs
  rw [List.foldl_append]

theorem run_irqs_frame (es : List Irq) :
    ∀ s : State, (run_irqs s es).log = s.log ∧
      (run_irqs s es).PORTC_F0 = s.PORTC_F0 ∧
      (run_irqs s es).PORTC_F1 = s.PORTC_F1 ∧
      (run_irqs s es).PORTC_F2 = s.PORTC_F2 := by
  induction es with
  | nil => intro s; exact ⟨rfl, rfl, rfl, rfl⟩
  | cons e es ih =>
    intro s
    have h1 := ih (interrupt s e)
    have h2 := handler_frame s e
    unfold run_irqs at h1 ⊢
    rw [List.foldl_cons]
    exact ⟨h1.1.trans h2.1, h1.2.1.trans h2.2.1, h1.2.2.1.trans h2.2.2.1,
      h1.2.2.2.trans h2.2.2.2⟩

theorem run_irqs_wave_scan (es : List Irq) :
    ∀ s : State, (run_irqs s es).wave_scan =
      if es.any (fun e => e.RCIF) = true then 0x80000000 else s.wave_scan := by
  induction es with
  | nil => intro s; rfl
  | cons e es ih =>
    intro s
    have h1 := ih (interrupt s e)
    have h2 := interrupt_wave_scan s e
    unfold run_irqs at h1 ⊢
    rw [List.foldl_cons, h1, h2, List.any_cons]
    cases e.RCIF <;> cases List.any es (fun e => e.RCIF) <;> simp

theorem run_irqs_rx_congr (es : List Irq) :
    ∀ s t : State, s.rx_data = t.rx_data → (run_irqs s es).rx_data = (run_irqs t es).rx_data := by
  induction es with
  | nil => intro s t h; exact h
  | cons e es ih =>
    intro s t h
    unfold run_irqs at ih ⊢
    rw [List.foldl_cons, List.foldl_cons]
    exact ih _ _ (interrupt_rx_congr s t e h)

/-- After the handler has taken its receive path the mailbox holds the byte
received, whatever else the handler did. -/
theorem interrupt_receive (s : State) (e : Irq) (h : e.RCIF = true) :
    (interrupt s e).rx_data = e.RCREG % 256 ∧ (interrupt s e).wave_scan = 0x80000000 := by
  unfold interrupt receive_path
  dsimp only
  rw [if_pos h]
  exact ⟨rfl, rfl⟩

/-! ### The pieces of `play_sound` on the bus -/

theorem streamed_log (s t : State) (ops : List Op) (h : t.log = s.log ++ ops) :
    streamed t = streamed s + (ops.map read_count).sum := by
  unfold streamed
  rw [h, List.map_append, List.sum_append]

theorem sample_pass_log (rate sample : Nat) (s : State) :
    ∃ tail, (∀ op ∈ tail, ∃ n, op = Op.delay_us n) ∧
      (sample_pass rate sample s).log = s.log ++
        [Op.spi_read s.PORTC_F0 s.PORTC_F1 true (sample % 256),
         Op.spi_write s.PORTC_F0 false false ((BYTE1 (wave_data_of sample) ||| 0x10) % 256),
         Op.spi_write s.PORTC_F0 false false (BYTE0 (wave_data_of sample) % 256)] ++ tail := by
  unfold sample_pass
  dsimp only [spi_write, delay_us]
  split_ifs
  · exact ⟨[Op.delay_us 0x65], by simp, by simp⟩
  · exact ⟨[Op.delay_us 0x41], by simp, by simp⟩
  · exact ⟨[Op.delay_us 0x12], by simp, by simp⟩
  · exact ⟨[], by simp, by simp⟩

theorem sample_pass_frame (rate sample : Nat) (s : State) :
    (sample_pass rate sample s).rx_data = s.rx_data ∧
    (sample_pass rate sample s).wave_scan = s.wave_scan := by
  unfold sample_pass
  dsimp only [spi_write, delay_us]
  split_ifs <;> exact ⟨rfl, rfl⟩

theorem delays_silent (tail : List Op) (h : ∀ op ∈ tail, ∃ n, op = Op.delay_us n) :
    (tail.map read_count).sum = 0 ∧ converter_bytes tail = [] ∧ store_bytes tail = [] := by
  induction tail with
  | nil => exact ⟨rfl, rfl, rfl⟩
  | cons op tail ih =>
    obtain ⟨n, rfl⟩ := h op (List.mem_cons_self _ _)
    obtain ⟨h1, h2, h3⟩ := ih (fun o ho => h o (List.mem_cons_of_mem _ ho))
    refine ⟨?_, ?_, ?_⟩
    · simp [read_count, h1]
    · unfold converter_bytes at h2 ⊢
      simp [converter_byte, h2]
    · unfold store_bytes at h3 ⊢
      simp [store_byte, h3]

theorem sample_pass_bus (rate sample : Nat) (s : State) :
    streamed (sample_pass rate sample s) = streamed s + 1 ∧
    converter_bytes (sample_pass rate sample s).log = converter_bytes s.log ++
      [(BYTE1 (wave_data_of sample) ||| 0x10) % 256, BYTE0 (wave_data_of sample) % 256] ∧
    store_bytes (sample_pass rate sample s).log = store_bytes s.log := by
  obtain ⟨tail, htail, hlog⟩ := sample_pass_log rate sample s
  obtain ⟨h1, h2, h3⟩ := delays_silent tail htail
  refine ⟨?_, ?_, ?_⟩
  · rw [streamed_log s _ _ (by rw [hlog, List.append_assoc])]
    simp [read_count, h1]
  · rw [hlog]
    unfold converter_bytes at h2 ⊢
    simp [converter_byte, h2]
  · rw [hlog]
    unfold store_bytes at h3 ⊢
    simp [store_byte, h3]

theorem shutdown_bus (s : State) :
    streamed (shutdown s) = streamed s ∧
    converter_bytes (shutdown s).log = converter_bytes s.log ++ [0x18, 0x00] ∧
    store_bytes (shutdown s).log = store_bytes s.log ++ [0xB9] ∧
    (shutdown s).rx_data = s.rx_data ∧ (shutdown s).wave_scan = s.wave_scan := by
  unfold shutdown
  dsimp only [spi_write, delay_us]
  refine ⟨?_, ?_, ?_, rfl, rfl⟩
  · simp [streamed, read_count]
  · simp [converter_bytes, converter_byte]
  · simp [store_bytes, store_byte]

theorem wake_bus (offset : Nat) (s : State) :
    streamed (wake offset s) = streamed s ∧
    (wake offset s).rx_data = s.rx_data ∧
    (s.PORTC_F1 = true →
      converter_bytes (wake offset s).log = converter_bytes s.log ∧
      store_bytes (wake offset s).log = store_bytes s.log ++
        [0xAB, 0x03, BYTE2 offset % 256, BYTE1 offset % 256, BYTE0 offset % 256]) := by
  unfold wake
  dsimp only [spi_write, delay_us]
  refine ⟨?_, rfl, ?_⟩
  · simp [streamed, read_count]
  · intro h
    simp [converter_bytes, converter_byte, store_bytes, store_byte, h]

/-! ### The loop of `play_sound` -/

/-- The state after one pass of the loop and the interrupts around it. -/
theorem pass_effect (rate : Nat) (env : Call) (k : Nat) (s : State) (hk : s.wave_scan = k) :
    ∃ t, t = run_irqs
        { run_irqs (sample_pass rate (env.samples k) s) (env.sch.loop k).body with
          wave_scan := ((run_irqs (sample_pass rate (env.samples k) s)
            (env.sch.loop k).body).wave_scan + 1) % 4294967296 }
        (env.sch.loop k).step ∧
      streamed t = streamed s + 1 ∧
      converter_bytes t.log = converter_bytes s.log ++
        [(BYTE1 (wave_data_of (env.samples k)) ||| 0x10) % 256,
         BYTE0 (wave_data_of (env.samples k)) % 256] ∧
      store_bytes t.log = store_bytes s.log ∧
      t.rx_data = (run_irqs s ((env.sch.loop k).body ++ (env.sch.loop k).step)).rx_data ∧
      t.wave_scan =
        (if (env.sch.loop k).step.any (fun e => e.RCIF) = true then 0x80000000
         else ((if (env.sch.loop k).body.any (fun e => e.RCIF) = true then 0x80000000 else k)
           + 1) % 4294967296) := by
  refine ⟨_, rfl, ?_, ?_, ?_, ?_, ?_⟩
  · have h := (sample_pass_bus rate (env.samples k) s).1
    unfold streamed at h ⊢
    rw [(run_irqs_frame _ _).1]
    dsimp only
    rw [(run_irqs_frame _ _).1, h]
  · rw [(run_irqs_frame _ _).1]
    dsimp only
    rw [(run_irqs_frame _ _).1, (sample_pass_bus rate (env.samples k) s).2.1]
  · rw [(run_irqs_frame _ _).1]
    dsimp only
    rw [(run_irqs_frame _ _).1, (sample_pass_bus rate (env.samples k) s).2.2]
  · rw [run_irqs_append]
    apply run_irqs_rx_congr
    dsimp only
    apply run_irqs_rx_congr
    exact (sample_pass_frame rate (env.samples k) s).1
  · rw [run_irqs_wave_scan]
    dsimp only
    rw [run_irqs_wave_scan, (sample_pass_frame rate (env.samples k) s).2, hk]

theorem play_loop_exit (rate length : Nat) (env : Call) (fuel k : Nat) (s : State)
    (h : ¬ s.wave_scan < length) :
    play_loop rate length env (fuel + 1) k s = some s := by
  rw [play_loop, if_neg h]

/-- The loop makes `passes_from` passes: it returns, it has fetched that many
samples and written their words to the converter, it has sent nothing to the
store, and the mailbox is what the interrupts of those passes leave. -/
theorem play_loop_spec (rate length : Nat) (env : Call) (hlen : length < 0x100000000)
    (H : length ≤ 0x80000000 ∨ ∀ j, cancels (env.sch.loop j) = false) :
    ∀ (r k fuel : Nat) (s : State), k + r = length → s.wave_scan = k → r + 1 ≤ fuel →
      ∃ s', play_loop rate length env fuel k s = some s' ∧
        streamed s' = streamed s + passes_from env.sch.loop r k ∧
        converter_bytes s'.log = converter_bytes s.log ++
          sample_bytes env.samples (passes_from env.sch.loop r k) k ∧
        store_bytes s'.log = store_bytes s.log ∧
        s'.rx_data =
          (run_irqs s (loop_events env.sch.loop (passes_from env.sch.loop r k) k)).rx_data := by
  intro r
  induction r with
  | zero =>
    intro k fuel s hk hws hfuel
    obtain ⟨f, rfl⟩ : ∃ f, fuel = f + 1 := ⟨fuel - 1, by omega⟩
    refine ⟨s, play_loop_exit _ _ _ _ _ _ (by omega), ?_, ?_, rfl, rfl⟩
    · simp [passes_from]
    · simp [passes_from, sample_bytes]
  | succ r ih =>
    intro k fuel s hk hws hfuel
    obtain ⟨f, rfl⟩ : ∃ f, fuel = f + 1 := ⟨fuel - 1, by omega⟩
    obtain ⟨t, ht, hst, hconv, hstore, hrx, hwave⟩ := pass_effect rate env k s hws
    have hstep : play_loop rate length env (f + 1) k s = play_loop rate length env f (k + 1) t := by
      rw [play_loop, if_pos (by omega), ht]
    rw [hstep]
    by_cases hc : cancels (env.sch.loop k) = true
    · have hl : length ≤ 0x80000000 := by
        rcases H with h | h
        · exact h
        · rw [h k] at hc
          exact absurd hc (by decide)
      have hany : (env.sch.loop k).body.any (fun e => e.RCIF) = true ∨
          (env.sch.loop k).step.any (fun e => e.RCIF) = true := by
        unfold cancels at hc
        rw [List.any_append, Bool.or_eq_true] at hc
        exact hc
      have hexit : ¬ t.wave_scan < length := by
        rw [hwave]
        rcases hany with hb | hs
        · simp only [hb, if_true]
          split_ifs
          · omega
          · omega
        · simp only [hs, if_true]
          omega
      obtain ⟨g, rfl⟩ : ∃ g, f = g + 1 := ⟨f - 1, by omega⟩
      have hp : passes_from env.sch.loop (r + 1) k = 1 := by
        rw [passes_from, if_pos hc]
      refine ⟨t, play_loop_exit _ _ _ _ _ _ hexit, ?_, ?_, hstore, ?_⟩
      · rw [hp, hst]
      · rw [hp, hconv]
        simp [sample_bytes]
      · rw [hp, hrx]
        simp [loop_events]
    · have hcf : cancels (env.sch.loop k) = false := by
        cases h : cancels (env.sch.loop k)
        · rfl
        · exact absurd h hc
      have hany : (env.sch.loop k).body.any (fun e => e.RCIF) = false ∧
          (env.sch.loop k).step.any (fun e => e.RCIF) = false := by
        unfold cancels at hcf
        rw [List.any_append, Bool.or_eq_false_iff] at hcf
        exact hcf
      have hws' : t.wave_scan = k + 1 := by
        rw [hwave, hany.1, hany.2]
        simp only [Bool.false_eq_true, if_false]
        omega
      obtain ⟨s', hrun, h1, h2, h3, h4⟩ := ih (k + 1) f t (by omega) hws' (by omega)
      have hp : passes_from env.sch.loop (r + 1) k = passes_from env.sch.loop r (k + 1) + 1 := by
        rw [passes_from, if_neg hc]
      refine ⟨s', hrun, ?_, ?_, ?_, ?_⟩
      · rw [hp, h1, hst]
        omega
      · rw [hp, h2, hconv, sample_bytes, List.append_assoc]
      · rw [h3, hstore]
      · rw [hp, h4, loop_events, run_irqs_append]
        exact run_irqs_rx_congr _ _ _ hrx

/-! ### A call of `play_sound` -/

/-- A call of `play_sound` returns once it has enough fuel, when `length` is
at most 2^31 or no byte is received during its loop.  It makes
`passes_from` passes, writes the words of those samples and then the
mid-scale word to the converter, sends the power-down command to the store,
and leaves in the mailbox what the interrupts that arrived leave there. -/
theorem play_sound_spec (rate offset length : Nat) (env : Call) (fuel : Nat) (s : State)
    (hlen : length < 0x100000000)
    (H : length ≤ 0x80000000 ∨ ∀ j, cancels (env.sch.loop j) = false)
    (hfuel : length + 1 ≤ fuel) :
    ∃ s', play_sound rate offset length env fuel s = some s' ∧
      streamed s' = streamed s + passes_from env.sch.loop length 0 ∧
      converter_bytes s'.log = converter_bytes (wake offset s).log ++
        sample_bytes env.samples (passes_from env.sch.loop length 0) 0 ++ [0x18, 0x00] ∧
      store_bytes s'.log = store_bytes (wake offset s).log ++ [0xB9] ∧
      s'.rx_data = (run_irqs s (env.sch.setup ++
        loop_events env.sch.loop (passes_from env.sch.loop length 0) 0 ++
        env.sch.finish)).rx_data ∧
      s'.PORTC_F1 = true := by
  obtain ⟨t, hrun, h1, h2, h3, h4⟩ := play_loop_spec rate length env hlen H length 0 fuel
    { run_irqs (wake offset s) env.sch.setup with wave_scan := 0x000000 }
    (by omega) rfl hfuel
  have hsd := shutdown_bus t
  refine ⟨run_irqs (shutdown t) env.sch.finish, ?_, ?_, ?_, ?_, ?_, ?_⟩
  · unfold play_sound
    dsimp only
    rw [hrun]
  · unfold streamed at h1 hsd ⊢
    rw [(run_irqs_frame _ _).1, hsd.1, h1]
    dsimp only
    rw [(run_irqs_frame _ _).1]
    exact congrArg (· + _) (wake_bus offset s).1
  · rw [(run_irqs_frame _ _).1, hsd.2.1, h2]
    dsimp only
    rw [(run_irqs_frame _ _).1]
  · rw [(run_irqs_frame _ _).1, hsd.2.2.1, h3]
    dsimp only
    rw [(run_irqs_frame _ _).1]
  · rw [run_irqs_append, run_irqs_append]
    apply run_irqs_rx_congr
    rw [hsd.2.2.2.1, h4]
    apply run_irqs_rx_congr
    dsimp only
    apply run_irqs_rx_congr
    exact (wake_bus offset s).2.1
  · rw [(run_irqs_frame _ _).2.2.1]
    rfl

theorem passes_from_none (loop : Nat → Arrivals) (h : ∀ j, cancels (loop j) = false) :
    ∀ r k, passes_from loop r k = r := by
  intro r
  induction r with
  | zero => intro k; rfl
  | succ r ih =>
    intro k
    rw [passes_from, h k, ih]
    simp

theorem passes_from_first (loop : Nat → Arrivals) :
    ∀ (n r k : Nat), n < r → (∀ j, j < n → cancels (loop (k + j)) = false) →
      cancels (loop (k + n)) = true → passes_from loop r k = n + 1 := by
  intro n
  induction n with
  | zero =>
    intro r k hr _ hat
    obtain ⟨r', rfl⟩ : ∃ r', r = r' + 1 := ⟨r - 1, by omega⟩
    rw [passes_from, if_pos (by simpa using hat)]
  | succ n ih =>
    intro r k hr hbefore hat
    obtain ⟨r', rfl⟩ : ∃ r', r = r' + 1 := ⟨r - 1, by omega⟩
    have h0 : cancels (loop k) = false := by
      have := hbefore 0 (by omega)
      simpa using this
    have hrec := ih r' (k + 1) (by omega)
      (fun j hj => by
        have := hbefore (j + 1) (by omega)
        rw [show k + 1 + j = k + (j + 1) by omega]
        exact this)
      (by rw [show k + 1 + n = k + (n + 1) by omega]; exact hat)
    rw [passes_from, h0, hrec]
    simp

theorem passes_from_le (loop : Nat → Arrivals) : ∀ r k, passes_from loop r k ≤ r := by
  intro r
  induction r with
  | zero => intro k; exact Nat.le_refl _
  | succ r ih =>
    intro k
    rw [passes_from]
    split_ifs
    · omega
    · have := ih (k + 1)
      omega

/-- When the last interrupt of a list takes the receive path, the mailbox
holds the byte it received. -/
theorem run_irqs_last (s : State) (es : List Irq) (e : Irq) (h : e.RCIF = true) :
    (run_irqs s (es ++ [e])).rx_data = e.RCREG % 256 := by
  rw [run_irqs_append]
  exact (interrupt_receive _ e h).1

/-- Interrupts that take neither path of the handler leave the state as it is. -/
theorem run_irqs_idle (s : State) (es : List Irq)
    (h : ∀ x ∈ es, x.INTF = false ∧ x.RCIF = false) : run_irqs s es = s := by
  induction es generalizing s with
  | nil => rfl
  | cons e es ih =>
    have he := h e (List.mem_cons_self _ _)
    have hstep : interrupt s e = s := by
      unfold interrupt
      rw [he.1, he.2]
      rfl
    show run_irqs (interrupt s e) es = s
    rw [hstep]
    exact ih s (fun x hx => h x (List.mem_cons_of_mem _ hx))

/-- When the external-interrupt path does not run after the last byte
received, the mailbox holds that byte. -/
theorem run_irqs_last_byte (s : State) (es tail : List Irq) (e : Irq) (h : e.RCIF = true)
    (ht : ∀ x ∈ tail, x.INTF = false ∧ x.RCIF = false) :
    (run_irqs s (es ++ e :: tail)).rx_data = e.RCREG % 256 := by
  have hsplit : es ++ e :: tail = (es ++ [e]) ++ tail := by simp
  rw [hsplit, run_irqs_append, run_irqs_idle _ tail ht]
  exact run_irqs_last s es e h

/-! ### Cancellation of a stream -/

/-- C12 fails as stated: in a call of three samples the byte 7 is received
during the second pass and the external interrupt arrives after it with both
pins low; the call returns after two passes with 0xFF in `rx_data`, not the
byte received. -/
theorem byte_overwritten_by_debug :
    cancels ((receive_then_debug 1 7 0x80).sch.loop 1) = true ∧
    ∃ s', play_sound FREQ_22050 0 3 (receive_then_debug 1 7 0x80) 4 init = some s' ∧
      streamed s' = 2 ∧ s'.rx_data = 0xFF ∧ s'.rx_data ≠ 7 := by
  refine ⟨by decide, _, rfl, ?_, ?_, ?_⟩ <;> decide

/-- C12 as amended.  For every call of `play_sound` with `length < 2^31`, if a
byte is received during or right after pass `k` of the loop (and none in an
earlier pass), the call returns after exactly `k + 1` passes: the body is not
entered again after that pass.  The mailbox then holds what the interrupts
that arrived during the call leave there; unless the external-interrupt path
runs after the last byte received, `rx_data` is exactly that byte, so with one
byte it is that byte and with several it is the last one. -/
theorem cancellation_latency (rate offset length : Nat) (env : Call) (fuel k : Nat)
    (s : State) (hlen : length < 2 ^ 31) (hfuel : length + 1 ≤ fuel) (hk : k < length)
    (hbefore : ∀ j, j < k → cancels (env.sch.loop j) = false)
    (hat : cancels (env.sch.loop k) = true) :
    ∃ s', play_sound rate offset length env fuel s = some s' ∧
      streamed s' = streamed s + (k + 1) ∧
      s'.rx_data = (run_irqs s (env.sch.setup ++ loop_events env.sch.loop (k + 1) 0 ++
        env.sch.finish)).rx_data ∧
      ∀ es e tail, env.sch.setup ++ loop_events env.sch.loop (k + 1) 0 ++ env.sch.finish =
          es ++ e :: tail → e.RCIF = true →
        (∀ x ∈ tail, x.INTF = false ∧ x.RCIF = false) → s'.rx_data = e.RCREG % 256 := by
  have hlen' : length < 2147483648 := hlen
  have hp : passes_from env.sch.loop length 0 = k + 1 :=
    passes_from_first env.sch.loop k length 0 hk
      (fun j hj => by rw [Nat.zero_add]; exact hbefore j hj)
      (by rw [Nat.zero_add]; exact hat)
  obtain ⟨s', hrun, h1, _, _, h4, _⟩ := play_sound_spec rate offset length env fuel s
    (by omega) (Or.inl (by omega)) hfuel
  rw [hp] at h1 h4
  refine ⟨s', hrun, h1, h4, ?_⟩
  intro es e tail hes he ht
  rw [h4, hes]
  exact run_irqs_last_byte s es tail e he ht

theorem cancellation_latency_witness :
    (3 : Nat) < 2 ^ 31 ∧
    cancels ((receive_at 1 7 0x80).sch.loop 1) = true ∧
    ∃ s', play_sound FREQ_22050 0 3 (receive_at 1 7 0x80) 4 init = some s' ∧
      streamed s' = streamed init + (1 + 1) ∧ s'.rx_data = 7 := by
  have hat : cancels ((receive_at 1 7 0x80).sch.loop 1) = true := by decide
  obtain ⟨s', h1, h2, _, h4⟩ := cancellation_latency FREQ_22050 0 3 (receive_at 1 7 0x80) 4 1
    init (by decide) (by decide) (by decide) (by decide) hat
  refine ⟨by decide, hat, s', h1, h2, ?_⟩
  exact h4 [] { INTF := false, RCIF := true, PORTA_F0 := false, PORTA_F1 := false, RCREG := 7 }
    [] (by decide) rfl (by simp)

/-- C14 fails as stated: a call of three samples that is cancelled by a byte
received during its first pass streams one sample and still writes the
mid-scale word 0x18, 0x00 to the converter and sends the power-down command
0xB9 to the store. -/
theorem reset_sent_after_cancel :
    ∃ s', play_sound FREQ_22050 0 3 (receive_at 0 7 0xFF) 4 init = some s' ∧
      streamed s' = 1 ∧
      converter_bytes s'.log = [0x1F, 0xF0, 0x18, 0x00] ∧
      store_bytes s'.log = [0xAB, 0x03, 0x00, 0x00, 0x00, 0xB9] := by
  refine ⟨_, rfl, ?_, ?_, ?_⟩ <;> decide

/-- C14 as amended.  Every call of `play_sound` whose `length` is at most
2^31, or during whose loop no byte is received, returns, and the last two
bytes written to the converter are the mid-scale word 0x18, 0x00 and the
last byte sent to the store is the power-down command 0xB9, both when the
loop has streamed all `length` samples and when the stream was cancelled; the
loop streams all `length` samples when no byte is received during it. -/
theorem reset_after_every_call (rate offset length : Nat) (env : Call) (fuel : Nat)
    (s : State) (hlen : length < 2 ^ 32)
    (H : length ≤ 2 ^ 31 ∨ ∀ j, cancels (env.sch.loop j) = false)
    (hfuel : length + 1 ≤ fuel) :
    ∃ s', play_sound rate offset length env fuel s = some s' ∧
      converter_bytes s'.log = converter_bytes (wake offset s).log ++
        sample_bytes env.samples (streamed s' - streamed s) 0 ++ [0x18, 0x00] ∧
      store_bytes s'.log = store_bytes (wake offset s).log ++ [0xB9] ∧
      streamed s' ≤ streamed s + length ∧
      ((∀ j, cancels (env.sch.loop j) = false) → streamed s' = streamed s + length) := by
  have hlen' : length < 4294967296 := hlen
  have H' : length ≤ 0x80000000 ∨ ∀ j, cancels (env.sch.loop j) = false := H
  obtain ⟨s', hrun, h1, h2, h3, _, _⟩ := play_sound_spec rate offset length env fuel s
    hlen' H' hfuel
  have hle := passes_from_le env.sch.loop length 0
  have hsub : streamed s' - streamed s = passes_from env.sch.loop length 0 := by omega
  refine ⟨s', hrun, by rw [hsub]; exact h2, h3, by omega, ?_⟩
  intro hq
  rw [h1, passes_from_none _ hq]

theorem reset_after_every_call_witness :
    (3 : Nat) < 2 ^ 32 ∧ (3 : Nat) ≤ 2 ^ 31 ∧
    ∃ s', play_sound FREQ_22050 0 3 (receive_at 0 7 0xFF) 4 init = some s' ∧
      store_bytes s'.log = store_bytes (wake 0 init).log ++ [0xB9] := by
  obtain ⟨s', h1, _, h3, _⟩ := reset_after_every_call FREQ_22050 0 3 (receive_at 0 7 0xFF) 4
    init (by decide) (Or.inl (by decide)) (by decide)
  exact ⟨by decide, by decide, s', h1, h3⟩

/-! ### The segments of a command -/

theorem streamed_delay_ms (s : State) (n : Nat) : streamed (delay_ms s n) = streamed s := by
  simp [streamed, delay_ms, read_count]

/-- Two calls of `play_sound` in a row: each makes the passes its own
interrupts allow. -/
theorem play_two (r1 o1 l1 r2 o2 l2 : Nat) (e1 e2 : Call) (fuel : Nat) (s : State)
    (h1 : l1 ≤ 0x80000000) (h2 : l2 ≤ 0x80000000) (hf1 : l1 + 1 ≤ fuel) (hf2 : l2 + 1 ≤ fuel) :
    ∃ s', ((play_sound r1 o1 l1 e1 fuel s).bind fun t => play_sound r2 o2 l2 e2 fuel t) =
        some s' ∧
      streamed s' = streamed s + passes_from e1.sch.loop l1 0 + passes_from e2.sch.loop l2 0 := by
  obtain ⟨t, ht, hst, _⟩ := play_sound_spec r1 o1 l1 e1 fuel s (by omega) (Or.inl h1) hf1
  obtain ⟨u, hu, hsu, _⟩ := play_sound_spec r2 o2 l2 e2 fuel t (by omega) (Or.inl h2) hf2
  refine ⟨u, ?_, ?_⟩
  · rw [ht, Option.some_bind, hu]
  · rw [hsu, hst]

/-- Three calls of `play_sound`, each followed by a pause. -/
theorem play_three (r o l p : Nat) (e1 e2 e3 : Call) (fuel : Nat) (s : State)
    (h : l ≤ 0x80000000) (hf : l + 1 ≤ fuel) :
    ∃ s', ((play_sound r o l e1 fuel s).bind fun t =>
        (play_sound r o l e2 fuel (delay_ms t p)).bind fun u =>
        (play_sound r o l e3 fuel (delay_ms u p)).bind fun v =>
        some (delay_ms v p)) = some s' ∧
      streamed s' = streamed s + passes_from e1.sch.loop l 0 + passes_from e2.sch.loop l 0 +
        passes_from e3.sch.loop l 0 := by
  obtain ⟨t, ht, hst, _⟩ := play_sound_spec r o l e1 fuel s (by omega) (Or.inl h) hf
  obtain ⟨u, hu, hsu, _⟩ := play_sound_spec r o l e2 fuel (delay_ms t p) (by omega)
    (Or.inl h) hf
  obtain ⟨v, hv, hsv, _⟩ := play_sound_spec r o l e3 fuel (delay_ms u p) (by omega)
    (Or.inl h) hf
  refine ⟨delay_ms v p, ?_, ?_⟩
  · rw [ht, Option.some_bind, hu, Option.some_bind, hv, Option.some_bind]
  · rw [streamed_delay_ms, hsv, streamed_delay_ms, hsu, streamed_delay_ms, hst]

theorem main_pass_COIN_1UP (envs : Nat → Call) (fuel : Nat) (s : State)
    (hs : s.rx_data = COIN_1UP) (hfuel : 0x8000 ≤ fuel) :
    ∃ s', main_pass envs fuel s = some s' ∧
      streamed s' = streamed s + passes_from (envs 0).sch.loop 0x000CEC 0 +
        passes_from (envs 1).sch.loop 0x0042F0 0 := by
  obtain ⟨s', h1, h2⟩ := play_two FREQ_22050 0x000000 0x000CEC FREQ_22050 0x0046BE 0x0042F0
    (envs 0) (envs 1) fuel { s with rx_data := 0xFF } (by omega) (by omega) (by omega)
    (by omega)
  refine ⟨s', ?_, h2⟩
  unfold main_pass
  dsimp only
  rw [hs, if_neg (by decide), if_pos rfl]
  exact h1

theorem main_pass_COIN_MUSHROOM (envs : Nat → Call) (fuel : Nat) (s : State)
    (hs : s.rx_data = COIN_MUSHROOM) (hfuel : 0x8000 ≤ fuel) :
    ∃ s', main_pass envs fuel s = some s' ∧
      streamed s' = streamed s + passes_from (envs 0).sch.loop 0x000CEC 0 +
        passes_from (envs 1).sch.loop 0x005053 0 := by
  obtain ⟨s', h1, h2⟩ := play_two FREQ_22050 0x000000 0x000CEC FREQ_22050 0x0089AE 0x005053
    (envs 0) (envs 1) fuel { s with rx_data := 0xFF } (by omega) (by omega) (by omega)
    (by omega)
  refine ⟨s', ?_, h2⟩
  unfold main_pass
  dsimp only
  rw [hs, if_neg (by decide), if_neg (by decide), if_pos rfl]
  exact h1

theorem main_pass_DOWN_PIPE (envs : Nat → Call) (fuel : Nat) (s : State)
    (hs : s.rx_data = DOWN_PIPE) (hfuel : 0x8000 ≤ fuel) :
    ∃ s', main_pass envs fuel s = some s' ∧
      streamed s' = streamed s + passes_from (envs 0).sch.loop 0x000FD2 0 +
        passes_from (envs 1).sch.loop 0x000FD2 0 + passes_from (envs 2).sch.loop 0x000FD2 0 := by
  obtain ⟨s', h1, h2⟩ := play_three FREQ_22050 0x01A88B 0x000FD2 85
    (envs 0) (envs 1) (envs 2) fuel { s with rx_data := 0xFF } (by omega) (by omega)
  refine ⟨s', ?_, h2⟩
  unfold main_pass
  dsimp only
  rw [hs, if_neg (by decide), if_neg (by decide), if_neg (by decide), if_neg (by decide),
    if_neg (by decide), if_pos rfl]
  exact h1

theorem cancelled_first_passes :
    passes_from (cancelled_first 0).sch.loop 0x000CEC 0 = 1 ∧
    passes_from (cancelled_first 1).sch.loop 0x0042F0 0 = 0x0042F0 := by
  have e0 : cancelled_first 0 = receive_at 0 COIN 0 := rfl
  have e1 : cancelled_first 1 = quiet 0 := rfl
  rw [e0, e1]
  exact ⟨passes_from_first (receive_at 0 COIN 0).sch.loop 0 0x000CEC 0 (by omega)
      (fun j hj => absurd hj (by omega)) (by decide),
    passes_from_none (quiet 0).sch.loop (fun _ => rfl) 0x0042F0 0⟩

/-- C13 fails as stated: COIN_1UP is in the mailbox, the byte COIN is
received during the first pass of its first segment, and nothing else
arrives.  The first segment stops after one sample, and the second segment
is then streamed in full: 1 + 0x42F0 samples are fetched in the pass of the
main loop, not 1. -/
theorem second_segment_streamed_after_cancel :
    ∃ s', main_pass cancelled_first 0x8000 { init with rx_data := COIN_1UP } = some s' ∧
      streamed s' = 1 + 0x0042F0 ∧ streamed s' ≠ 1 := by
  obtain ⟨s', h1, h2⟩ := main_pass_COIN_1UP cancelled_first 0x8000
    { init with rx_data := COIN_1UP } rfl (by omega)
  have hs0 : streamed { init with rx_data := COIN_1UP } = 0 := by decide
  rw [cancelled_first_passes.1, cancelled_first_passes.2, hs0] at h2
  exact ⟨s', h1, by rw [h2], by rw [h2]; decide⟩

/-- C13 as amended.  For each of the commands COIN_1UP, COIN_MUSHROOM and
DOWN_PIPE the pass of the main loop makes all its calls of `play_sound` and
then ends; every segment or repeat is started afresh and streams the number
of samples its own interrupts allow, whatever happened in the segments before
it: all its samples when no byte is received during it, and `k + 1` samples
when the first byte is received in its pass `k`.  So a byte received while a
segment is streaming stops that segment after the current sample, and the
remaining segments and repeats are still streamed. -/
theorem later_segments_streamed (c : Nat) (envs : Nat → Call) (fuel : Nat) (s : State)
    (hc : c = COIN_1UP ∨ c = COIN_MUSHROOM ∨ c = DOWN_PIPE) (hs : s.rx_data = c)
    (hfuel : 0x8000 ≤ fuel) :
    ∃ s', main_pass envs fuel s = some s' ∧
      (c = COIN_1UP → streamed s' = streamed s + passes_from (envs 0).sch.loop 0x000CEC 0 +
        passes_from (envs 1).sch.loop 0x0042F0 0) ∧
      (c = COIN_MUSHROOM → streamed s' = streamed s +
        passes_from (envs 0).sch.loop 0x000CEC 0 + passes_from (envs 1).sch.loop 0x005053 0) ∧
      (c = DOWN_PIPE → streamed s' = streamed s + passes_from (envs 0).sch.loop 0x000FD2 0 +
        passes_from (envs 1).sch.loop 0x000FD2 0 + passes_from (envs 2).sch.loop 0x000FD2 0) ∧
      (∀ i n, (∀ j, cancels ((envs i).sch.loop j) = false) →
        passes_from (envs i).sch.loop n 0 = n) ∧
      (∀ i n k, k < n → (∀ j, j < k → cancels ((envs i).sch.loop j) = false) →
        cancels ((envs i).sch.loop k) = true → passes_from (envs i).sch.loop n 0 = k + 1) := by
  have hnone : ∀ i n, (∀ j, cancels ((envs i).sch.loop j) = false) →
      passes_from (envs i).sch.loop n 0 = n :=
    fun i n h => passes_from_none _ h n 0
  have hfirst : ∀ i n k, k < n → (∀ j, j < k → cancels ((envs i).sch.loop j) = false) →
      cancels ((envs i).sch.loop k) = true → passes_from (envs i).sch.loop n 0 = k + 1 :=
    fun i n k hk hb hat => passes_from_first _ k n 0 hk
      (fun j hj => by rw [Nat.zero_add]; exact hb j hj) (by rw [Nat.zero_add]; exact hat)
  rcases hc with rfl | rfl | rfl
  · obtain ⟨s', h1, h2⟩ := main_pass_COIN_1UP envs fuel s hs hfuel
    exact ⟨s', h1, fun _ => h2, fun h => absurd h (by decide), fun h => absurd h (by decide),
      hnone, hfirst⟩
  · obtain ⟨s', h1, h2⟩ := main_pass_COIN_MUSHROOM envs fuel s hs hfuel
    exact ⟨s', h1, fun h => absurd h (by decide), fun _ => h2, fun h => absurd h (by decide),
      hnone, hfirst⟩
  · obtain ⟨s', h1, h2⟩ := main_pass_DOWN_PIPE envs fuel s hs hfuel
    exact ⟨s', h1, fun h => absurd h (by decide), fun h => absurd h (by decide), fun _ => h2,
      hnone, hfirst⟩

theorem later_segments_streamed_witness :
    (COIN_1UP = COIN_1UP ∨ COIN_1UP = COIN_MUSHROOM ∨ COIN_1UP = DOWN_PIPE) ∧
    ({ init with rx_data := COIN_1UP } : State).rx_data = COIN_1UP ∧
    ∃ s', main_pass cancelled_first 0x8000 { init with rx_data := COIN_1UP } = some s' ∧
      streamed s' = streamed { init with rx_data := COIN_1UP } +
        passes_from (cancelled_first 0).sch.loop 0x000CEC 0 +
        passes_from (cancelled_first 1).sch.loop 0x0042F0 0 := by
  obtain ⟨s', h1, h2, _⟩ := later_segments_streamed COIN_1UP cancelled_first 0x8000
    { init with rx_data := COIN_1UP } (Or.inl rfl) rfl (by omega)
  exact ⟨Or.inl rfl, rfl, s', h1, h2 rfl⟩

/-! ### The debug override -/

/-- C15. When the external-interrupt path of the handler runs, pins
(`PORTA.F0`, `PORTA.F1`) reading (1,1) store ITS_MARIO (3) in the mailbox,
(0,1) store OUTTA_TIME (4) and (1,0) store DOWN_PIPE (5), whatever the state
was; this is also what the whole handler leaves when no byte is pending.  No
two of the three conditions hold together, and the three codes differ. -/
theorem debug_truth_table (s : State) (rcreg : Nat) :
    (external_path s true true).rx_data = ITS_MARIO ∧
    (external_path s false true).rx_data = OUTTA_TIME ∧
    (external_path s true false).rx_data = DOWN_PIPE ∧
    (interrupt s { INTF := true, RCIF := false, PORTA_F0 := true, PORTA_F1 := true,
                   RCREG := rcreg }).rx_data = 3 ∧
    (interrupt s { INTF := true, RCIF := false, PORTA_F0 := false, PORTA_F1 := true,
                   RCREG := rcreg }).rx_data = 4 ∧
    (interrupt s { INTF := true, RCIF := false, PORTA_F0 := true, PORTA_F1 := false,
                   RCREG := rcreg }).rx_data = 5 ∧
    (∀ f0 f1 : Bool, ¬ ((f0 && f1) = true ∧ (!f0 && f1) = true) ∧
      ¬ ((f0 && f1) = true ∧ (f0 && !f1) = true) ∧
      ¬ ((!f0 && f1) = true ∧ (f0 && !f1) = true)) ∧
    ITS_MARIO ≠ OUTTA_TIME ∧ ITS_MARIO ≠ DOWN_PIPE ∧ OUTTA_TIME ≠ DOWN_PIPE := by
  refine ⟨rfl, rfl, rfl, rfl, rfl, rfl, by decide, by decide, by decide, by decide⟩

/-- C16 fails as stated: with COIN waiting in the mailbox and both pins
low, the external-interrupt path leaves 0xFF in `rx_data`, not COIN. -/
theorem debug_clears_mailbox :
    (external_path { init with rx_data := COIN } false false).rx_data = 0xFF ∧
    (external_path { init with rx_data := COIN } false false).rx_data ≠
      ({ init with rx_data := COIN } : State).rx_data := by
  decide

/-- C16 as amended.  For every prior mailbox value, when the
external-interrupt path runs and both pins are deasserted, `rx_data` after
the path is 0xFF, the empty value, and the rest of the state is as before;
when no byte is pending in the same entry of the handler (`RCIF` clear),
`rx_data` after the handler is 0xFF, so it equals its prior value only when
the mailbox was already empty; when a byte is pending in the same entry, the
receive path then stores that byte. -/
theorem debug_other_pattern (s : State) (rcreg : Nat) :
    (external_path s false false).rx_data = 0xFF ∧
    external_path s false false = { s with rx_data := 0xFF } ∧
    (interrupt s { INTF := true, RCIF := false, PORTA_F0 := false, PORTA_F1 := false,
                   RCREG := rcreg }).rx_data = 0xFF ∧
    ((interrupt s { INTF := true, RCIF := false, PORTA_F0 := false, PORTA_F1 := false,
                    RCREG := rcreg }).rx_data = s.rx_data ↔ s.rx_data = 0xFF) ∧
    (interrupt s { INTF := true, RCIF := true, PORTA_F0 := false, PORTA_F1 := false,
                   RCREG := rcreg }).rx_data = rcreg % 256 := by
  have h : (interrupt s (Irq.mk true false false false rcreg)).rx_data = 0xFF := rfl
  refine ⟨rfl, rfl, h, ⟨fun h1 => ?_, fun h1 => ?_⟩, rfl⟩
  · rw [← h1]
    exact h
  · rw [h1]
    exact h

/-- C17, the code at the failing input.  In the middle of a stream
(`wave_scan = 5`) the external interrupt with both pins high stores ITS_MARIO
and leaves `wave_scan = 5`, where the reception of a byte sets it to
0x80000000; the external-interrupt path never writes `wave_scan`; and a call
of three samples during whose first pass the external interrupt arrives
streams all three samples. -/
theorem debug_override_leaves_wave_scan :
    (interrupt { init with wave_scan := 5 }
      { INTF := true, RCIF := false, PORTA_F0 := true, PORTA_F1 := true,
        RCREG := 0 }).rx_data = ITS_MARIO ∧
    (interrupt { init with wave_scan := 5 }
      { INTF := true, RCIF := false, PORTA_F0 := true, PORTA_F1 := true,
        RCREG := 0 }).wave_scan = 5 ∧
    (interrupt { init with wave_scan := 5 }
      { INTF := false, RCIF := true, PORTA_F0 := true, PORTA_F1 := true,
        RCREG := 0 }).wave_scan = 0x80000000 ∧
    (∀ (s : State) (f0 f1 : Bool), (external_path s f0 f1).wave_scan = s.wave_scan) ∧
    ∃ s', play_sound FREQ_22050 0 3 (debug_at 0 0xFF) 4 init = some s' ∧
      streamed s' = 3 ∧ s'.rx_data = ITS_MARIO := by
  refine ⟨rfl, rfl, rfl, fun s f0 f1 => (external_path_frame s f0 f1).1, _, rfl, ?_, ?_⟩ <;>
    decide

/-! ### The word written to the converter -/

set_option maxRecDepth 100000 in
theorem wave_data_bytes :
    ∀ b, b < 256 →
      (BYTE1 (wave_data_of b) ||| 0x10) % 256 = 0x10 ||| (b >>> 4) ∧
      BYTE0 (wave_data_of b) % 256 = 16 * b % 256 ∧
      256 * (0x10 ||| (b >>> 4)) + 16 * b % 256 = 0x1000 + 16 * b := by
  decide

/-- C19. For every sample byte `b` in 0..255 the two bytes a pass of the
loop of `play_sound` writes to the converter are `0x10 | (b >> 4)` and
`(16 * b) mod 256`, which form the 16-bit word `0x1000 + 16 * b`; the two
bytes written on reset are 0x18, 0x00, the word for `b = 0x80`. -/
theorem sample_scaling (b : Nat) (hb : b < 256) (rate : Nat) (s : State) :
    converter_bytes (sample_pass rate b s).log =
      converter_bytes s.log ++ [0x10 ||| (b >>> 4), 16 * b % 256] ∧
    256 * (0x10 ||| (b >>> 4)) + 16 * b % 256 = 0x1000 + 16 * b ∧
    converter_bytes (shutdown s).log = converter_bytes s.log ++ [0x18, 0x00] ∧
    converter_bytes (sample_pass rate 0x80 s).log = converter_bytes s.log ++ [0x18, 0x00] := by
  have h := wave_data_bytes b hb
  have h80 := wave_data_bytes 0x80 (by decide)
  refine ⟨?_, h.2.2, (shutdown_bus s).2.1, ?_⟩
  · rw [(sample_pass_bus rate b s).2.1, h.1, h.2.1]
  · rw [(sample_pass_bus rate 0x80 s).2.1, h80.1, h80.2.1]
    rfl

theorem sample_scaling_witness :
    (0xFF : Nat) < 256 ∧
    converter_bytes (sample_pass FREQ_22050 0xFF init).log = [0x1F, 0xF0] ∧
    256 * 0x1F + 0xF0 = 0x1000 + 16 * 0xFF :=
  ⟨by decide, (sample_scaling 0xFF (by decide) FREQ_22050 init).1, by decide⟩

end DoorRinger

namespace HexConvert

/-! ### The accesses of the writer stay inside the arrays -/

theorem loop_accesses_external (bytes : List Byte) :
    ∀ (size pos : Nat) (hf : HexFile) (s : List Byte), Inv hf s →
      ∀ a ∈ loop_accesses (Source.external bytes) false size pos hf, a.in_bounds := by
  intro size
  induction size with
  | zero =>
    intro pos hf s _ a ha
    simp [loop_accesses] at ha
  | succ n ih =>
    intro pos hf s hinv a ha
    have hc : hf.buf_cnt = s.length % 16 := hinv.2.1
    have hlt : s.length % 16 < 16 := Nat.mod_lt _ (by decide)
    have hinc : (hf.buf_cnt + 1) % SIZE_T = s.length % 16 + 1 := by
      rw [hc]; unfold SIZE_T; omega
    rw [loop_accesses, List.mem_append] at ha
    rcases ha with ha | ha
    · unfold pass_accesses at ha
      rw [hinc] at ha
      simp only [List.nil_append, List.mem_append, List.mem_singleton] at ha
      rcases ha with rfl | ha
      · show hf.buf_cnt < 16
        omega
      · by_cases hcond : s.length % 16 + 1 = 16 ∨ ((false : Bool) = true ∧ n = 0)
        · rw [if_pos hcond, List.mem_singleton] at ha
          rw [ha]
          show 2 * (s.length % 16 + 1) + 1 ≤ 33
          omega
        · rw [if_neg hcond] at ha
          simp at ha
    · exact ih (pos + 1) _ _ (Inv_pass hf s bytes n pos hinv) a ha

theorem loop_accesses_internal :
    ∀ (size pos : Nat) (hf : HexFile), hf.buf_cnt = pos → hf.buf.length = 16 →
      pos + size ≤ 15 →
      ∀ a ∈ loop_accesses Source.internal true size pos hf, a.in_bounds := by
  intro size
  induction size with
  | zero =>
    intro pos hf _ _ _ a ha
    simp [loop_accesses] at ha
  | succ n ih =>
    intro pos hf hc hl hle a ha
    have hinc : (pos + 1) % SIZE_T = pos + 1 := by unfold SIZE_T; omega
    rw [loop_accesses, List.mem_append] at ha
    rcases ha with ha | ha
    · unfold pass_accesses at ha
      rw [hc, hinc] at ha
      simp only [List.mem_append, List.mem_singleton] at ha
      rcases ha with (rfl | rfl) | ha
      · show pos < 16
        omega
      · show pos < 16
        omega
      · by_cases hcond : pos + 1 = 16 ∨ (True ∧ n = 0)
        · rw [if_pos hcond, List.mem_singleton] at ha
          rw [ha]
          show 2 * (pos + 1) + 1 ≤ 33
          omega
        · rw [if_neg hcond] at ha
          simp at ha
    · cases n with
      | zero => simp [loop_accesses] at ha
      | succ m =>
        have hno : ¬ (pos + 1 = 16 ∨ (True ∧ m + 1 = 0)) := by omega
        have hnext : loop_pass Source.internal true (m + 1) pos hf =
            HexFile.mk hf.out hf.out_cnt hf.buf (pos + 1) := by
          simp only [loop_pass, fetch]
          rw [hc, set_getD_self _ _ (by omega), hinc, if_neg hno]
        rw [hnext] at ha
        exact ih (pos + 1) (HexFile.mk hf.out hf.out_cnt hf.buf (pos + 1)) rfl hl (by omega) a ha

/-- C21. After `hexfile_open` and after every sequence of `hexfile_write`
calls from outside buffers, `buf_cnt < 16` and `out_cnt` is a multiple of
16.  Hence in a further write from an outside buffer and in the flush of
`hexfile_close` every store `hf->buf[buf_cnt]` and every read of `hf->buf`
through `buf` has its index below 16, and every record printed has at most 16
bytes, so that its hex text and terminator fit the 33 bytes of `cbuf`.  The
accesses of the flush of three buffered bytes are listed. -/
theorem buffer_invariant (ws : List (List Byte)) (bytes : List Byte) :
    hexfile_open.buf_cnt < 16 ∧ hexfile_open.out_cnt % 16 = 0 ∧
    (write_all ws).buf_cnt < 16 ∧ (write_all ws).out_cnt % 16 = 0 ∧
    (write_all ws).buf.length = 16 ∧
    (∀ a ∈ write_accesses (write_all ws) (Source.external bytes) bytes.length,
      a.in_bounds) ∧
    (∀ a ∈ write_accesses (write_all ws) Source.internal (write_all ws).buf_cnt,
      a.in_bounds) ∧
    write_accesses (write_all [[1, 2, 3]]) Source.internal 3 =
      [Access.fetch_own 0, Access.store 0, Access.fetch_own 1, Access.store 1,
       Access.fetch_own 2, Access.store 2, Access.cbuf_write 3] := by
  have hinv := Inv_write_all ws
  obtain ⟨ho, hc, hl, _, _⟩ := hinv
  have hlt : ws.flatten.length % 16 < 16 := Nat.mod_lt _ (by decide)
  refine ⟨by decide, by decide, by rw [hc]; exact hlt, ?_, hl, ?_, ?_, by decide⟩
  · rw [ho]
    unfold SIZE_T
    omega
  · intro a ha
    unfold write_accesses at ha
    simp only [reduceCtorEq, decide_False, Bool.false_eq_true, if_false] at ha
    exact loop_accesses_external bytes _ 0 _ _ (Inv_write_all ws) a ha
  · intro a ha
    unfold write_accesses at ha
    simp only [decide_True, if_true] at ha
    have hle : 0 + (write_all ws).buf_cnt ≤ 15 := by rw [hc]; omega
    exact loop_accesses_internal (write_all ws).buf_cnt 0
      (HexFile.mk (write_all ws).out (write_all ws).out_cnt (write_all ws).buf 0)
      rfl hl hle a ha

/-! ### Offsets beyond the range of `size_t` -/

/-- The header fields of a file are read from its first 44 bytes. -/
theorem tag_append (h p : List Byte) (off : Nat) (hoff : off + 4 ≤ h.length) :
    tag (h ++ p) off = tag h off := by
  unfold tag
  rw [List.drop_append_of_le_length (by omega), List.take_append_of_le_length]
  rw [List.length_drop]
  omega

theorem u16_append (h p : List Byte) (off : Nat) (hoff : off + 2 ≤ h.length) :
    u16 (h ++ p) off = u16 h off := by
  unfold u16
  rw [List.getD_append _ _ _ _ (by omega), List.getD_append _ _ _ _ (by omega)]

theorem u32_append (h p : List Byte) (off : Nat) (hoff : off + 4 ≤ h.length) :
    u32 (h ++ p) off = u32 h off := by
  unfold u32
  rw [u16_append h p off (by omega), u16_append h p (off + 2) (by omega)]

theorem big_file_length : big_file.length = 0x7FFFFFFF := by
  unfold big_file
  rw [List.length_append, List.length_replicate]
  rfl

theorem big_file_accepted : (process_wavfile hexfile_open big_file).rc = 0 := by
  have hl : big_header.length = 44 := rfl
  have t0 : tag big_file 0 = RIFF := by
    unfold big_file; rw [tag_append _ _ _ (by have := hl; omega)]; rfl
  have t8 : tag big_file 8 = WAVE := by
    unfold big_file; rw [tag_append _ _ _ (by have := hl; omega)]; rfl
  have t12 : tag big_file 12 = FMT_ := by
    unfold big_file; rw [tag_append _ _ _ (by have := hl; omega)]; rfl
  have t36 : tag big_file 36 = DATA := by
    unfold big_file; rw [tag_append _ _ _ (by have := hl; omega)]; rfl
  have a4 : u32 big_file 4 = 0x7FFFFFF7 := by
    have h : u32 big_header 4 = 0x7FFFFFF7 := by decide
    unfold big_file; rw [u32_append _ _ _ (by have := hl; omega), h]
  have a16 : u32 big_file 16 = 16 := by
    have h : u32 big_header 16 = 16 := by decide
    unfold big_file; rw [u32_append _ _ _ (by have := hl; omega), h]
  have a20 : u16 big_file 20 = 1 := by
    have h : u16 big_header 20 = 1 := by decide
    unfold big_file; rw [u16_append _ _ _ (by have := hl; omega), h]
  have a22 : u16 big_file 22 = 1 := by
    have h : u16 big_header 22 = 1 := by decide
    unfold big_file; rw [u16_append _ _ _ (by have := hl; omega), h]
  have a24 : u32 big_file 24 = 8000 := by
    have h : u32 big_header 24 = 8000 := by decide
    unfold big_file; rw [u32_append _ _ _ (by have := hl; omega), h]
  have a28 : u32 big_file 28 = 8000 := by
    have h : u32 big_header 28 = 8000 := by decide
    unfold big_file; rw [u32_append _ _ _ (by have := hl; omega), h]
  have a32 : u16 big_file 32 = 1 := by
    have h : u16 big_header 32 = 1 := by decide
    unfold big_file; rw [u16_append _ _ _ (by have := hl; omega), h]
  have a34 : u16 big_file 34 = 8 := by
    have h : u16 big_header 34 = 8 := by decide
    unfold big_file; rw [u16_append _ _ _ (by have := hl; omega), h]
  have a40 : u32 big_file 40 = 0x7FFFFFD3 := by
    have h : u32 big_header 40 = 0x7FFFFFD3 := by decide
    unfold big_file; rw [u32_append _ _ _ (by have := hl; omega), h]
  unfold process_wavfile
  simp only [big_file_length, t0, t8, t12, t36, a4, a16, a20, a22, a24, a28, a32, a34, a40]
  repeat rw [if_neg (by decide)]

/-- The offset reported for the fourth file of a run whose first three files
are accepted and have 0x7FFFFFFF bytes each. -/
theorem fourth_offset (f1 f2 f3 f4 : List Byte)
    (h1 : (process_wavfile hexfile_open f1).rc = 0)
    (h2 : (process_wavfile hexfile_open f2).rc = 0)
    (h3 : (process_wavfile hexfile_open f3).rc = 0)
    (h4 : (process_wavfile hexfile_open f4).rc = 0)
    (l1 : f1.length = 0x7FFFFFFF) (l2 : f2.length = 0x7FFFFFFF) (l3 : f3.length = 0x7FFFFFFF) :
    (main [f1, f2, f3, f4]).rc = 0 ∧
    (([f1, f2, f3] : List (List Byte)).map (fun g => (g.drop 44).length)).sum = 0x17FFFFF79 ∧
    hexfile_tell (write_all (([f1, f2, f3] : List (List Byte)).map (fun g => g.drop 44))) =
      0x7FFFFF79 ∧
    ∃ r, (main [f1, f2, f3, f4]).reports[3]? = some r ∧
      r.offset = 0x7FFFFF79 ∧
      r.offset ≠ (([f1, f2, f3] : List (List Byte)).map (fun g => (g.drop 44).length)).sum := by
  have hall : ∀ f ∈ ([f1, f2, f3, f4] : List (List Byte)),
      (process_wavfile hexfile_open f).rc = 0 := by
    intro f hf
    simp only [List.mem_cons, List.mem_singleton, List.not_mem_nil, or_false] at hf
    rcases hf with rfl | rfl | rfl | rfl
    · exact h1
    · exact h2
    · exact h3
    · exact h4
  have hrc : (main [f1, f2, f3, f4]).rc = 0 := process_all_accept _ hexfile_open [] hall
  have hsum : (([f1, f2, f3] : List (List Byte)).map (fun g => (g.drop 44).length)).sum =
      0x17FFFFF79 := by
    simp only [List.map_cons, List.map_nil, List.sum_cons, List.sum_nil, List.length_drop,
      l1, l2, l3]
    rfl
  obtain ⟨_, hrep, _⟩ := process_all_ok _ hexfile_open [] [] Inv_open hrc
  have hget := expected_reports_get [f1, f2, f3, f4] 0 3 f4 rfl
  have hget' : (main [f1, f2, f3, f4]).reports[3]? =
      some { offset := 0x7FFFFF79, length := f4.length - 44, sample_rate := u32 f4 24 } := by
    unfold main
    rw [hrep, List.nil_append]
    show (expected_reports 0 _)[3]? = _
    rw [hget]
    simp only [List.take_succ_cons, List.take_zero, List.map_cons, List.map_nil, List.sum_cons,
      List.sum_nil, l1, l2, l3]
    rfl
  refine ⟨hrc, hsum, ?_, ⟨_, hget', rfl, ?_⟩⟩
  · rw [hexfile_tell_of_Inv _ _ (Inv_write_all _), List.length_flatten, List.map_map]
    simp only [List.map_cons, List.map_nil, List.sum_cons, List.sum_nil, Function.comp,
      List.length_drop, l1, l2, l3]
    rfl
  · rw [hsum]
    show (0x7FFFFF79 : Nat) ≠ 0x17FFFFF79
    decide

/-- C8 fails as stated: in a run over four accepted files of which the first
three carry 0x7FFFFFD3 payload bytes each, the payloads before the fourth
file total 0x17FFFFF79 bytes, and the offset reported for the fourth file,
which is the value of `hexfile_tell` before its write, is 0x7FFFFF79: the
sum reduced modulo 2^32. -/
theorem reported_offset_wraps :
    (main [big_file, big_file, big_file, header8000 2 ++ [1, 2]]).rc = 0 ∧
    (([big_file, big_file, big_file] : List (List Byte)).map
      (fun g => (g.drop 44).length)).sum = 0x17FFFFF79 ∧
    hexfile_tell (write_all (([big_file, big_file, big_file] : List (List Byte)).map
      (fun g => g.drop 44))) = 0x7FFFFF79 ∧
    ∃ r, (main [big_file, big_file, big_file, header8000 2 ++ [1, 2]]).reports[3]? = some r ∧
      r.offset = 0x7FFFFF79 ∧
      r.offset ≠ (([big_file, big_file, big_file] : List (List Byte)).map
        (fun g => (g.drop 44).length)).sum :=
  fourth_offset big_file big_file big_file (header8000 2 ++ [1, 2])
    big_file_accepted big_file_accepted big_file_accepted (by decide)
    big_file_length big_file_length big_file_length

end HexConvert
